import Mathlib

/-!
# fwup, `src/util.c`

A shallow embedding of the support layer of fwup: the output encoder
(`fwup_output`), the diagnostic reporters (`fwup_err`, `fwup_warnx`), the
last-error slot (`set_last_error`, `last_error`) and the page-aligned
allocator (`get_pagesize`, `alloc_page_aligned`, `free_page_aligned`).

Conventions of the embedding:

* a byte is a `UInt8`; a region of memory read through a pointer is the list
  of the bytes found there; a C string holding the text `s` is `cstr s`,
  that is `s` followed by its terminating zero byte;
* standard output is the list of all bytes written to it so far, and every
  `fwrite` is taken to succeed;
* lengths, addresses and machine integers are natural numbers, reduced
  modulo `2 ^ w` wherever the C type has `w` bits;
* a variadic `format, ...` argument list is represented by the text that
  printf-style formatting produces from it.
-/

namespace Fwup

/-! ## Platform -/

/-- The properties of the build and the constants that `util.c` takes from
headers outside the file (`util.h`, `progress.h`, `stdlib.h`). -/
structure Platform where
  /-- Byte order of the host, `true` on a big-endian machine. -/
  bigEndian : Bool
  /-- The value of `sizeof(void*)`; `size_t` has the same width. -/
  ptrBytes : Nat
  /-- The string literal `FRAMING_TYPE_ERROR` of `util.h`. -/
  FRAMING_TYPE_ERROR : List UInt8
  /-- The string literal `FRAMING_TYPE_WARNING` of `util.h`. -/
  FRAMING_TYPE_WARNING : List UInt8
  /-- The enumerator `PROGRESS_MODE_NORMAL` of `progress.h`. -/
  PROGRESS_MODE_NORMAL : Int
  /-- The constant `EXIT_FAILURE` of `stdlib.h`. -/
  EXIT_FAILURE : Int
  /-- Whether `HAVE_SYSCONF` is set for the build. -/
  HAVE_SYSCONF : Bool

/-- The two `extern` globals that select the output mode. -/
structure Globals where
  /-- The flag `fwup_framing`. -/
  fwup_framing : Bool
  /-- The variable `fwup_progress_mode`, an `enum fwup_progress_option`. -/
  fwup_progress_mode : Int

/-! ## Bytes of machine integers -/

/-- The `n` low-order bytes of `x`, least significant byte first. -/
def le_bytes : Nat → Nat → List UInt8
  | 0, _ => []
  | n + 1, x => UInt8.ofNat (x % 256) :: le_bytes n (x / 256)

/-- The `n` low-order bytes of `x`, most significant byte first. -/
def be_bytes (n x : Nat) : List UInt8 :=
  (le_bytes n x).reverse

/-- The object representation of an `n`-byte unsigned integer `x` in the
memory of the host: what `fwrite(&x, n, 1, ...)` sends. -/
def object_bytes (P : Platform) (n x : Nat) : List UInt8 :=
  if P.bigEndian then be_bytes n x else le_bytes n x

/-- The value of the unsigned integer whose bytes, least significant first,
are `bs`. -/
def le_value : List UInt8 → Nat
  | [] => 0
  | b :: bs => b.toNat + 256 * le_value bs

/-- The value of the unsigned integer whose bytes in host order are `bs`. -/
def object_value (P : Platform) (bs : List UInt8) : Nat :=
  if P.bigEndian then le_value bs.reverse else le_value bs

/-- Byte reversal of a 16-bit value. -/
def bswap16 (x : Nat) : Nat :=
  x % 256 * 256 + x / 256 % 256

/-- Byte reversal of a 32-bit value. -/
def bswap32 (x : Nat) : Nat :=
  x % 256 * 2 ^ 24 + x / 2 ^ 8 % 256 * 2 ^ 16 + x / 2 ^ 16 % 256 * 2 ^ 8 + x / 2 ^ 24 % 256

/-- Modelled from the spec: the macro `TO_BIGENDIAN16` is defined in `util.h`,
which is not part of the source. It turns a 16-bit value into the value whose
representation in host memory is big-endian: the identity on a big-endian
host and a byte swap on a little-endian one. -/
def TO_BIGENDIAN16 (P : Platform) (x : Nat) : Nat :=
  if P.bigEndian then x % 2 ^ 16 else bswap16 (x % 2 ^ 16)

/-- Modelled from the spec: the macro `TO_BIGENDIAN32` is defined in `util.h`,
which is not part of the source. It turns a 32-bit value into the value whose
representation in host memory is big-endian; a wider argument such as a
`size_t` is first converted to 32 bits. -/
def TO_BIGENDIAN32 (P : Platform) (x : Nat) : Nat :=
  if P.bigEndian then x % 2 ^ 32 else bswap32 (x % 2 ^ 32)

/-- The wire encoding `u32_be` of the specification: four bytes, most
significant first. -/
def u32_be (x : Nat) : List UInt8 :=
  [UInt8.ofNat (x / 2 ^ 24 % 256), UInt8.ofNat (x / 2 ^ 16 % 256),
   UInt8.ofNat (x / 2 ^ 8 % 256), UInt8.ofNat (x % 256)]

/-- The wire encoding `u16_be` of the specification: two bytes, most
significant first. -/
def u16_be (x : Nat) : List UInt8 :=
  [UInt8.ofNat (x / 2 ^ 8 % 256), UInt8.ofNat (x % 256)]

/-! ## C strings and the output stream -/

/-- The C string holding the text `s`: the bytes of `s` and a terminating
zero byte. -/
def cstr (s : List UInt8) : List UInt8 :=
  s ++ [0]

/-- The libc function `strlen`: the number of bytes in front of the first
zero byte of the memory at `str`. -/
def strlen : List UInt8 → Nat
  | [] => 0
  | b :: rest => if b = 0 then 0 else strlen rest + 1

/-- The libc call `fwrite(ptr, size, nmemb, stdout)`: `size * nmemb` bytes
from the memory at `ptr` are appended to the stream. -/
def fwrite (ptr : List UInt8) (size nmemb : Nat) (stdout : List UInt8) : List UInt8 :=
  stdout ++ ptr.take (size * nmemb)

/-- The function `fwup_output` (util.c, lines 386-403). `type` and `str` are
the memory behind the two pointers, `code` is the `uint16_t` argument, and the
result is standard output after the call. `len + 4` is a `size_t`, at least 32
bits wide, that `TO_BIGENDIAN32` converts to 32 bits. The four bytes of the
plain branch are the C literal of carriage return, ESC, `[` and `K`. -/
def fwup_output (P : Platform) (G : Globals) (type : List UInt8) (code : Nat)
    (str : List UInt8) (stdout : List UInt8) : List UInt8 :=
  let len := strlen str
  let stdout :=
    if G.fwup_framing then
      let be_length := TO_BIGENDIAN32 P (len + 4)
      let be_code := TO_BIGENDIAN16 P (code % 2 ^ 16)
      let stdout := fwrite (object_bytes P 4 be_length) 4 1 stdout
      let stdout := fwrite type 2 1 stdout
      fwrite (object_bytes P 2 be_code) 2 1 stdout
    else if G.fwup_progress_mode = P.PROGRESS_MODE_NORMAL ∧ len > 0 then
      fwrite [0x0D, 0x1B, 0x5B, 0x4B] 1 4 stdout
    else
      stdout
  if len ≠ 0 then fwrite str 1 len stdout else stdout

/-- The bytes of an ASCII string literal of the C source. -/
def ascii (s : String) : List UInt8 :=
  s.toList.map (fun c => UInt8.ofNat c.toNat)

/-- A platform for the concrete examples: a little-endian 64-bit host. The
tags and enumerator values are sample values for the constants of the headers
that are not part of the source. -/
def sample_platform : Platform :=
  { bigEndian := false, ptrBytes := 8,
    FRAMING_TYPE_ERROR := ascii "ER", FRAMING_TYPE_WARNING := ascii "WN",
    PROGRESS_MODE_NORMAL := 2, EXIT_FAILURE := 1, HAVE_SYSCONF := true }

/-! ## A reader of the wire format -/

/-- A record of the wire format as a reader sees it. -/
structure Frame where
  /-- The two type bytes. -/
  type : List UInt8
  /-- The numeric code. -/
  code : Nat
  /-- The payload bytes. -/
  payload : List UInt8
deriving DecidableEq

/-- The reader of the framed wire format, written from the words of the
specification and not from the source (fwup only writes frames): it reads the
4-byte big-endian length `L`, then exactly `L` more bytes, which are 2 type
bytes, 2 big-endian code bytes and `L - 4` payload bytes. It gives the frame
and the bytes left unread, or nothing when the input ends early or `L < 4`. -/
def spec_read_frame (input : List UInt8) : Option (Frame × List UInt8) :=
  if input.length < 4 then none
  else
    let L := le_value (input.take 4).reverse
    let after := input.drop 4
    if L < 4 ∨ after.length < L then none
    else
      let body := after.take L
      some ({ type := body.take 2,
              code := le_value ((body.drop 2).take 2).reverse,
              payload := body.drop 4 }, after.drop L)

/-! ## Diagnostic reporters -/

/-- Modelled from the spec: `struct simple_string` and the functions
`simple_string_init`, `ssappend`, `ssvprintf` and `ssprintf` live in
`simple_string.c`, which is not part of the source. The reporters use them to
build one text from pieces; `str` is that text, and the pointer `s.str` of the
C code is the C string `cstr s.str`. -/
structure simple_string where
  /-- The text accumulated so far. -/
  str : List UInt8

/-- Modelled from the spec: `simple_string_init` starts with the empty text. -/
def simple_string_init : simple_string :=
  { str := [] }

/-- Modelled from the spec: `ssappend` adds a text at the end. -/
def ssappend (s : simple_string) (text : List UInt8) : simple_string :=
  { str := s.str ++ text }

/-- Modelled from the spec: `ssvprintf(&s, format, ap)` adds the text that
printf-style formatting makes of `format` and `ap`; `formatted` is that text. -/
def ssvprintf (s : simple_string) (formatted : List UInt8) : simple_string :=
  { str := s.str ++ formatted }

/-- Modelled from the spec: `ssprintf(&s, ": %s\n", arg)`, the one use of
`ssprintf` in the reporters: it adds a colon, a blank, the string `arg` and a
newline. -/
def ssprintf_colon_s_newline (s : simple_string) (arg : List UInt8) : simple_string :=
  { str := s.str ++ (ascii ": " ++ arg ++ ascii "\n") }

/-- How a reporter ends: it returns to its caller, or the process has exited
with a status. Both carry standard output as the call leaves it. -/
inductive Outcome where
  | returned (stdout : List UInt8)
  | exited (status : Int) (stdout : List UInt8)
deriving DecidableEq

/-- The function `fwup_warnx` (util.c, lines 366-384); `formatted` is the
text that formatting makes of `format, ...`. -/
def fwup_warnx (P : Platform) (G : Globals) (formatted : List UInt8)
    (stdout : List UInt8) : Outcome :=
  let s := simple_string_init
  let s :=
    if G.fwup_framing then
      ssvprintf s formatted
    else
      let s := ssappend s (ascii "fwup: ")
      let s := ssvprintf s formatted
      ssappend s (ascii "\n")
  let stdout := fwup_output P G P.FRAMING_TYPE_WARNING 0 (cstr s.str) stdout
  Outcome.returned stdout

/-- The function `fwup_errx` (util.c, lines 345-364). -/
def fwup_errx (P : Platform) (G : Globals) (status : Int) (formatted : List UInt8)
    (stdout : List UInt8) : Outcome :=
  let s := simple_string_init
  let s :=
    if G.fwup_framing then
      ssvprintf s formatted
    else
      let s := ssappend s (ascii "fwup: ")
      let s := ssvprintf s formatted
      ssappend s (ascii "\n")
  let stdout := fwup_output P G P.FRAMING_TYPE_ERROR 0 (cstr s.str) stdout
  Outcome.exited status stdout

/-- The function `fwup_err` (util.c, lines 323-343). `strerror` is the libc
function. `errno k` is the value of the variable `errno` after `k` of the
library calls that the function makes: `errno 0` is its value at entry, and
the later values are whatever the formatting calls leave there. -/
def fwup_err (P : Platform) (G : Globals) (strerror : Int → List UInt8)
    (errno : Nat → Int) (status : Int) (formatted : List UInt8)
    (stdout : List UInt8) : Outcome :=
  let err := errno 0
  let s := simple_string_init
  let s :=
    if G.fwup_framing then
      ssvprintf s formatted
    else
      let s := ssappend s (ascii "fwup: ")
      let s := ssvprintf s formatted
      ssprintf_colon_s_newline s (strerror err)
  let stdout := fwup_output P G P.FRAMING_TYPE_ERROR 0 (cstr s.str) stdout
  Outcome.exited status stdout

/-! ## The last-error slot -/

/-- The static pointer `last_error_message` with the strings it owns.
`last_error_message` is `none` for `NULL` and an address otherwise; `heap`
lists the live strings that `vasprintf` allocated for the slot, each with its
address and its text. -/
structure ErrorSlot where
  /-- The pointer `last_error_message`. -/
  last_error_message : Option Nat
  /-- The live allocations made for the slot. -/
  heap : List (Nat × List UInt8)
deriving DecidableEq

/-- The state at program start: `last_error_message = NULL`, nothing
allocated. -/
def ErrorSlot.initial : ErrorSlot :=
  { last_error_message := none, heap := [] }

/-- The libc call `free(p)` on the allocations of the slot. -/
def free (p : Nat) (heap : List (Nat × List UInt8)) : List (Nat × List UInt8) :=
  heap.filter (fun b => b.1 ≠ p)

/-- The function `set_last_error` (util.c, lines 81-95). `vasprintf` is the
result of the libc call: `none` when it fails (a negative return), otherwise
the address of the fresh string and the formatted text in it. -/
def set_last_error (vasprintf : Option (Nat × List UInt8)) (σ : ErrorSlot) : ErrorSlot :=
  let heap :=
    match σ.last_error_message with
    | some p => free p σ.heap
    | none => σ.heap
  match vasprintf with
  | some (address, text) => { last_error_message := some address, heap := (address, text) :: heap }
  | none => { last_error_message := none, heap := heap }

/-- The string that a pointer into the heap of the slot points to, `none`
when nothing live is at that address. -/
def string_at (heap : List (Nat × List UInt8)) (p : Nat) : Option (List UInt8) :=
  (heap.find? (fun b => b.1 = p)).map (fun b => b.2)

/-- The function `last_error` (util.c, lines 97-100): the text of the string
it returns a pointer to, `none` if the pointer returned does not point to a
live string. -/
def last_error (σ : ErrorSlot) : Option (List UInt8) :=
  match σ.last_error_message with
  | some p => string_at σ.heap p
  | none => some (ascii "none")

/-- The slot after a sequence of `set_last_error` calls from program start,
given the result of `vasprintf` in each call, oldest first. -/
def after_calls (calls : List (Option (Nat × List UInt8))) : ErrorSlot :=
  calls.foldl (fun σ r => set_last_error r σ) ErrorSlot.initial

/-! ## The page-aligned allocator -/

/-- Memory: the byte at each address. -/
abbrev Memory := Nat → UInt8

/-- Memory after the bytes `bs` are stored from address `addr` on. -/
def store_bytes (mem : Memory) (addr : Nat) (bs : List UInt8) : Memory :=
  fun x => if addr ≤ x ∧ x < addr + bs.length then bs.getD (x - addr) 0 else mem x

/-- The `n` bytes of memory from address `addr` on. -/
def load_bytes (mem : Memory) (addr n : Nat) : List UInt8 :=
  (List.range n).map (fun i => mem (addr + i))

/-- The number of bits of a pointer and of a `size_t`. -/
def Platform.bits (P : Platform) : Nat :=
  8 * P.ptrBytes

/-- Addition of two `size_t` values, or of a pointer and an offset. -/
def size_add (P : Platform) (a b : Nat) : Nat :=
  (a + b) % 2 ^ P.bits

/-- Subtraction of two `size_t` values. -/
def size_sub (P : Platform) (a b : Nat) : Nat :=
  (a + (2 ^ P.bits - b % 2 ^ P.bits)) % 2 ^ P.bits

/-- Bitwise complement of a `size_t` value. -/
def size_not (P : Platform) (a : Nat) : Nat :=
  2 ^ P.bits - 1 - a % 2 ^ P.bits

/-- The state of the allocator: the static variable `cached_pagesize` and
the memory of the process. -/
structure AllocState where
  /-- The static variable `cached_pagesize` of the build with `HAVE_SYSCONF`. -/
  cached_pagesize : Nat
  /-- The memory of the process. -/
  mem : Memory

/-- The function `get_pagesize` (util.c, lines 479-492): the page size and the
new value of `cached_pagesize`. `sysconf` is what `sysconf(_SC_PAGESIZE)`
returns, a `long`, if it is called. In the build without `HAVE_SYSCONF` the
variable is the constant 4096. -/
def get_pagesize (P : Platform) (sysconf : Int) (cached_pagesize : Nat) : Nat × Nat :=
  if P.HAVE_SYSCONF then
    let cached_pagesize :=
      if cached_pagesize = 0 then
        let rc := sysconf
        if rc > 0 then rc.toNat % 2 ^ P.bits else 4096
      else
        cached_pagesize
    (cached_pagesize, cached_pagesize)
  else
    (4096, 4096)

/-- How `alloc_page_aligned` ends. -/
inductive AllocOutcome where
  /-- The backing `malloc` failed: `fwup_err` is called with this status and
  the process exits. -/
  | fatal (status : Int)
  /-- The store of the saved pointer falls outside the backing block: the
  behaviour of the C program is undefined. -/
  | undefined
  /-- The call returns: the address put into `*memptr`, and the new state. -/
  | returned (memptr : Nat) (σ : AllocState)

/-- The function `alloc_page_aligned` (util.c, lines 494-514) in the build
without `HAVE_POSIX_MEMALIGN`. `sysconf` is as in `get_pagesize`;
`original` is what `malloc(size + padding)` returns, `0` for `NULL`,
otherwise the address of a block of `size + padding` bytes. The address sum
`original + padding` is converted to `uint64_t`, masked with the `size_t`
value `~(pagesize - 1)` and converted back to a pointer. The store through
`savelocation` is defined only inside the backing block. -/
def alloc_page_aligned (P : Platform) (sysconf : Int) (original : Nat) (size : Nat)
    (σ : AllocState) : AllocOutcome :=
  let (pagesize, cached_pagesize) := get_pagesize P sysconf σ.cached_pagesize
  let padding := size_sub P (size_add P pagesize pagesize) 1
  let block := size_add P size padding
  if original = 0 then
    AllocOutcome.fatal P.EXIT_FAILURE
  else
    let aligned :=
      (size_add P original padding % 2 ^ 64 &&& size_not P (size_sub P pagesize 1)) % 2 ^ P.bits
    if P.ptrBytes ≤ aligned ∧ original ≤ aligned - P.ptrBytes ∧ aligned ≤ original + block then
      let savelocation := aligned - P.ptrBytes
      AllocOutcome.returned aligned
        { cached_pagesize := cached_pagesize,
          mem := store_bytes σ.mem savelocation (object_bytes P P.ptrBytes original) }
    else
      AllocOutcome.undefined

/-- The function `free_page_aligned` (util.c, lines 516-525) in the build
without `HAVE_POSIX_MEMALIGN`: the address that it passes to `free`, read from
the pointer-sized slot in front of `memptr`. -/
def free_page_aligned (P : Platform) (mem : Memory) (memptr : Nat) : Nat :=
  let savelocation := memptr - P.ptrBytes
  let original := object_value P (load_bytes mem savelocation P.ptrBytes)
  original

/-- The address that a call of `alloc_page_aligned` hands to its caller, if
it returns. -/
def AllocOutcome.address : AllocOutcome → Option Nat
  | AllocOutcome.returned memptr _ => some memptr
  | _ => none

/-- The function `alloc_page_aligned` (util.c, lines 494-514) in the build
with `HAVE_POSIX_MEMALIGN`. `posix_memalign alignment size` is the result of
the libc call: its return value, which is 0 on success and an error number on
failure, and the pointer found in `*memptr` after the call. -/
def alloc_page_aligned_native (P : Platform) (sysconf : Int)
    (posix_memalign : Nat → Nat → Int × Nat) (size : Nat) (σ : AllocState) : AllocOutcome :=
  let (pagesize, cached_pagesize) := get_pagesize P sysconf σ.cached_pagesize
  let (rc, memptr) := posix_memalign pagesize size
  if rc < 0 then
    AllocOutcome.fatal P.EXIT_FAILURE
  else
    AllocOutcome.returned memptr { cached_pagesize := cached_pagesize, mem := σ.mem }

/-- The page sizes that successive calls of `get_pagesize` return, starting
with `cached_pagesize` in the given state; the list holds what
`sysconf(_SC_PAGESIZE)` would report at each call. -/
def pagesize_calls (P : Platform) : List Int → Nat → List Nat
  | [], _ => []
  | sysconf :: later, cached_pagesize =>
    (get_pagesize P sysconf cached_pagesize).1
      :: pagesize_calls P later (get_pagesize P sysconf cached_pagesize).2

/-! ## The hex codec -/

/-- The function `hexchar_to_int` (util.c, lines 102-129): a `switch` over
the characters `0`-`9`, `a`-`f` and `A`-`F`, with 255 for every other one. -/
def hexchar_to_int (c : UInt8) : Nat :=
  if c = 0x30 then 0
  else if c = 0x31 then 1
  else if c = 0x32 then 2
  else if c = 0x33 then 3
  else if c = 0x34 then 4
  else if c = 0x35 then 5
  else if c = 0x36 then 6
  else if c = 0x37 then 7
  else if c = 0x38 then 8
  else if c = 0x39 then 9
  else if c = 0x61 ∨ c = 0x41 then 10
  else if c = 0x62 ∨ c = 0x42 then 11
  else if c = 0x63 ∨ c = 0x43 then 12
  else if c = 0x64 ∨ c = 0x44 then 13
  else if c = 0x65 ∨ c = 0x45 then 14
  else if c = 0x66 ∨ c = 0x46 then 15
  else 255

/-- The function `nibble_to_hexchar` (util.c, lines 131-152): a `switch`
over the values 0 to 15, with the character `0` for every other one. -/
def nibble_to_hexchar (nibble : Nat) : UInt8 :=
  match nibble with
  | 0 => 0x30
  | 1 => 0x31
  | 2 => 0x32
  | 3 => 0x33
  | 4 => 0x34
  | 5 => 0x35
  | 6 => 0x36
  | 7 => 0x37
  | 8 => 0x38
  | 9 => 0x39
  | 10 => 0x61
  | 11 => 0x62
  | 12 => 0x63
  | 13 => 0x64
  | 14 => 0x65
  | 15 => 0x66
  | _ => 0x30

/-- What a call of `hex_to_bytes` leaves: its return value, the message
recorded for the caller if there is one, and the bytes stored through
`bytes`, in the order of the stores. -/
structure HexResult where
  /-- The return value. -/
  rc : Int
  /-- The message given to `ERR_RETURN`, if the call fails. -/
  message : Option (List UInt8)
  /-- The bytes stored through `bytes`. -/
  written : List UInt8
deriving DecidableEq

/-- Modelled from the spec: the macro `ERR_RETURN` is defined in `util.h`,
which is not part of the source. It is the local convention of failure with a
message: the message is recorded for the caller and the function returns a
negative value, for which -1 stands here; the process goes on. -/
def ERR_RETURN (message : String) (written : List UInt8) : HexResult :=
  { rc := -1, message := some (ascii message), written := written }

/-- The `while (len)` loop of `hex_to_bytes` (util.c, lines 163-173). `fuel`
bounds the number of tests of the loop condition; the result is `none` when
it runs out. `len` is even at every test, the odd lengths having returned
before the loop, so `len -= 2` is an exact subtraction. -/
def hex_to_bytes_loop : Nat → Nat → List UInt8 → List UInt8 → Option HexResult
  | 0, _, _, _ => none
  | fuel + 1, len, str, written =>
    if len = 0 then
      some { rc := 0, message := none, written := written }
    else
      let sixteens := hexchar_to_int (str.getD 0 0)
      let ones := hexchar_to_int (str.getD 1 0)
      if sixteens = 255 ∨ ones = 255 then
        some (ERR_RETURN "Invalid character in hex string" written)
      else
        hex_to_bytes_loop fuel (len - 2) (str.drop 2)
          (written ++ [UInt8.ofNat ((sixteens <<< 4 ||| ones) % 256)])

/-- The function `hex_to_bytes` (util.c, lines 154-175); `str` is the memory
behind the pointer. The loop is given `len + 1` tests of its condition. -/
def hex_to_bytes (str : List UInt8) (maxbytes : Nat) : Option HexResult :=
  let len := strlen str
  if len &&& 1 ≠ 0 then
    some (ERR_RETURN "hex string should have an even number of characters" [])
  else if len / 2 > maxbytes then
    some (ERR_RETURN "hex string is too long (%d bytes)" [])
  else
    hex_to_bytes_loop (len + 1) len str []

/-- The `while (byte_count)` loop of `bytes_to_hex` (util.c, lines 179-184):
the characters stored through `str`, after those stored before. -/
def bytes_to_hex_loop : Nat → List UInt8 → List UInt8 → List UInt8
  | 0, _, str => str
  | byte_count + 1, bytes, str =>
    let str := str ++ [nibble_to_hexchar ((bytes.getD 0 0).toNat >>> 4)]
    let str := str ++ [nibble_to_hexchar ((bytes.getD 0 0).toNat &&& 0xf)]
    bytes_to_hex_loop byte_count (bytes.drop 1) str

/-- The function `bytes_to_hex` (util.c, lines 177-187): its return value and
the memory it has written from `str` on, the closing zero byte included. -/
def bytes_to_hex (bytes : List UInt8) (byte_count : Nat) : Int × List UInt8 :=
  let str := bytes_to_hex_loop byte_count bytes []
  let str := str ++ [0]
  (0, str)

/-- A character of `0`-`9`, `a`-`f` or `A`-`F`, in the words of the
specification. -/
def is_hex_digit (c : UInt8) : Prop :=
  (0x30 ≤ c.toNat ∧ c.toNat ≤ 0x39) ∨ (0x61 ≤ c.toNat ∧ c.toNat ≤ 0x66)
    ∨ (0x41 ≤ c.toNat ∧ c.toNat ≤ 0x46)

instance is_hex_digit_decidable (c : UInt8) : Decidable (is_hex_digit c) := by
  unfold is_hex_digit
  infer_instance

/-- A character of `0`-`9` or `a`-`f`: a lower-case hex digit. -/
def is_lower_hex_digit (c : UInt8) : Prop :=
  (0x30 ≤ c.toNat ∧ c.toNat ≤ 0x39) ∨ (0x61 ≤ c.toNat ∧ c.toNat ≤ 0x66)

instance is_lower_hex_digit_decidable (c : UInt8) : Decidable (is_lower_hex_digit c) := by
  unfold is_lower_hex_digit
  infer_instance

/-- The value of a hex digit, in the words of the specification: the distance
from `0` for a decimal digit, 10 plus the distance from `a` or `A` for a
letter. -/
def hex_value (c : UInt8) : Nat :=
  if 0x30 ≤ c.toNat ∧ c.toNat ≤ 0x39 then c.toNat - 0x30
  else if 0x61 ≤ c.toNat ∧ c.toNat ≤ 0x66 then c.toNat - 0x61 + 10
  else c.toNat - 0x41 + 10

/-- The lower-case hex digit of a value below 16. -/
def hex_digit (v : Nat) : UInt8 :=
  if v < 10 then UInt8.ofNat (0x30 + v) else UInt8.ofNat (0x61 + (v - 10))

/-- A character with the letters `A`-`F` turned to lower case. -/
def lower_hex (c : UInt8) : UInt8 :=
  if 0x41 ≤ c.toNat ∧ c.toNat ≤ 0x46 then UInt8.ofNat (c.toNat + 0x20) else c

/-- The bytes that a string of hex digits stands for, in the words of the
specification: each pair of characters gives the byte
`16 * value(first) + value(second)`. -/
def spec_hex_decode : List UInt8 → List UInt8
  | a :: b :: rest => UInt8.ofNat (16 * hex_value a + hex_value b) :: spec_hex_decode rest
  | _ => []

/-- The lower-case hex string of a byte sequence, in the words of the
specification: for each byte the digit of its high nibble and the digit of
its low nibble. -/
def spec_hex_encode : List UInt8 → List UInt8
  | [] => []
  | x :: rest => hex_digit (x.toNat / 16) :: hex_digit (x.toNat % 16) :: spec_hex_encode rest

/-! ## Units -/

/-- Modelled from the spec: the macros `ONE_KiB`, `ONE_MiB`, `ONE_GiB`,
`ONE_TiB`, `ONE_KB`, `ONE_MB`, `ONE_GB` and `ONE_TB` are defined in `util.h`,
which is not part of the source. They are the binary units, powers of 1024,
and the decimal units, powers of 1000. -/
def ONE_KiB : Int := 1024

/-- Modelled from the spec: see `ONE_KiB`. -/
def ONE_MiB : Int := 1024 * ONE_KiB

/-- Modelled from the spec: see `ONE_KiB`. -/
def ONE_GiB : Int := 1024 * ONE_MiB

/-- Modelled from the spec: see `ONE_KiB`. -/
def ONE_TiB : Int := 1024 * ONE_GiB

/-- Modelled from the spec: see `ONE_KiB`. -/
def ONE_KB : Int := 1000

/-- Modelled from the spec: see `ONE_KiB`. -/
def ONE_MB : Int := 1000 * ONE_KB

/-- Modelled from the spec: see `ONE_KiB`. -/
def ONE_GB : Int := 1000 * ONE_MB

/-- Modelled from the spec: see `ONE_KiB`. -/
def ONE_TB : Int := 1000 * ONE_GB

/-- The function `units_to_string` (util.c, lines 250-264). -/
def units_to_string (units : Int) : String :=
  if units = 1 then "bytes"
  else if units = ONE_KiB then "KiB"
  else if units = ONE_MiB then "MiB"
  else if units = ONE_GiB then "GiB"
  else if units = ONE_TiB then "TiB"
  else if units = ONE_KB then "KB"
  else if units = ONE_MB then "MB"
  else if units = ONE_GB then "GB"
  else if units = ONE_TB then "TB"
  else "?"

/-- The function `find_natural_units` (util.c, lines 270-277); `amount` is
an `off_t`, a signed integer. -/
def find_natural_units (amount : Int) : Int :=
  if amount ≥ ONE_TB then ONE_TB
  else if amount ≥ ONE_GB then ONE_GB
  else if amount ≥ ONE_MB then ONE_MB
  else if amount ≥ ONE_KB then ONE_KB
  else 1

/-- The function `format_pretty_auto` (util.c, lines 287-290).
`format_pretty amount units` stands for the call of `format_pretty` with the
output buffer of the caller; it formats a floating-point quotient and is not
modelled further. -/
def format_pretty_auto {α : Type} (format_pretty : Int → Int → α) (amount : Int) : α :=
  format_pretty amount (find_natural_units amount)

/-- The set of units of the specification: 1 and the four binary and four
decimal units. -/
def all_units : List Int :=
  [1, ONE_KiB, ONE_MiB, ONE_GiB, ONE_TiB, ONE_KB, ONE_MB, ONE_GB, ONE_TB]

/-- The units that `find_natural_units` chooses from: 1 and the decimal
units. -/
def decimal_units : List Int :=
  [1, ONE_KB, ONE_MB, ONE_GB, ONE_TB]

/-! ## The exit handshake -/

/-- The build target and the constants of `sys/stat.h` and `errno.h` that
`will_be_regular_file` depends on. -/
structure FilePlatform where
  /-- Whether `__APPLE__` or `__linux__` is defined. -/
  apple_or_linux : Bool
  /-- Whether `_WIN32` is defined. -/
  win32 : Bool
  /-- The constant `S_IFMT`, the mask of the file type bits of `st_mode`. -/
  S_IFMT : Nat
  /-- The constant `S_IFREG`, the file type of a regular file. -/
  S_IFREG : Nat
  /-- The constant `ENOENT`. -/
  ENOENT : Int

/-- The outcome of `stat(path, &st)`: the return value, the field `st_mode`
and the value of `errno` after the call. -/
structure StatResult where
  /-- The return value of `stat`. -/
  rc : Int
  /-- The field `st.st_mode`. -/
  st_mode : Nat
  /-- The value of `errno` after the call. -/
  errno : Int

/-- The test `strncmp(s1, s2, n) == 0` of libc: the two strings agree in
their first `n` characters, or up to their end when they are shorter. -/
def strncmp_eq (s1 s2 : List UInt8) (n : Nat) : Bool :=
  (s1.take (strlen s1)).take n == (s2.take (strlen s2)).take n

/-- The function `will_be_regular_file` (util.c, lines 213-235); `path` is
the memory behind the pointer and `st` the outcome of `stat` on it. -/
def will_be_regular_file (F : FilePlatform) (path : List UInt8) (st : StatResult) : Bool :=
  let is_in_dev :=
    if F.apple_or_linux ∧ strncmp_eq path (cstr (ascii "/dev/")) 5 = true then true else false
  if F.win32 ∧ strncmp_eq path (cstr [0x5C, 0x5C, 0x2E, 0x5C]) 4 = true then
    false
  else
    let rc := st.rc
    decide ((rc = 0 ∧ st.st_mode &&& F.S_IFREG ≠ 0)
      ∨ (rc < 0 ∧ st.errno = F.ENOENT ∧ is_in_dev = false))

/-- The macro `S_ISREG` of `sys/stat.h`: the file type bits of `st_mode` are
those of a regular file. -/
def S_ISREG (F : FilePlatform) (st_mode : Nat) : Bool :=
  st_mode &&& F.S_IFMT == F.S_IFREG

/-- Linux, with the values of its `sys/stat.h` and `errno.h`: `S_IFMT` is
octal 170000, `S_IFREG` octal 100000 and `ENOENT` is 2. -/
def linux : FilePlatform :=
  { apple_or_linux := true, win32 := false, S_IFMT := 0o170000, S_IFREG := 0o100000,
    ENOENT := 2 }

/-! ## The fallback `memmem` -/

/-- The test `memcmp(s1, s2, n) == 0` of libc: the first `n` bytes agree. -/
def memcmp_eq (s1 s2 : List UInt8) (n : Nat) : Bool :=
  s1.take n == s2.take n

/-- The `for` loop of the fallback `memmem` (util.c, lines 461-464).
Pointers are offsets from `haystack`, so `p` starts at 0 and `pend` is
`haystacklen - needlelen`. `fuel` bounds the number of tests of `p != pend`;
the result is `none` when it runs out, `some none` when the loop ends and
`NULL` is returned, and `some (some p)` when `p` is returned. -/
def memmem_loop (haystack needle : List UInt8) (needlelen : Nat) (pend : Int) :
    Nat → Nat → Option (Option Nat)
  | 0, _ => none
  | fuel + 1, p =>
    if (p : Int) ≠ pend then
      if memcmp_eq (haystack.drop p) needle needlelen = true then some (some p)
      else memmem_loop haystack needle needlelen pend fuel (p + 1)
    else
      some none

/-- The fallback function `memmem` (util.c, lines 455-467), for the build
without `HAVE_MEMMEM`. The loop is given `haystacklen + 1` tests of its
condition. -/
def memmem (haystack : List UInt8) (haystacklen : Nat) (needle : List UInt8)
    (needlelen : Nat) : Option (Option Nat) :=
  let p : Nat := 0
  let pend : Int := (p : Int) + haystacklen - needlelen
  memmem_loop haystack needle needlelen pend (haystacklen + 1) p

/-- The needle occurs in the haystack at offset `i`. -/
def occurs_at (haystack needle : List UInt8) (i : Nat) : Prop :=
  i + needle.length ≤ haystack.length ∧ (haystack.drop i).take needle.length = needle

instance occurs_at_decidable (haystack needle : List UInt8) (i : Nat) :
    Decidable (occurs_at haystack needle i) := by
  unfold occurs_at
  infer_instance

/-! ## Lemmas on the byte encodings -/

theorem le_bytes_bswap32 (y : Nat) : le_bytes 4 (bswap32 y) = u32_be y := by
  simp only [le_bytes, u32_be, bswap32, Nat.reducePow]
  have e0 : (y % 256 * 16777216 + y / 256 % 256 * 65536 + y / 65536 % 256 * 256
      + y / 16777216 % 256) % 256 = y / 16777216 % 256 := by omega
  have e1 : (y % 256 * 16777216 + y / 256 % 256 * 65536 + y / 65536 % 256 * 256
      + y / 16777216 % 256) / 256 % 256 = y / 65536 % 256 := by omega
  have e2 : (y % 256 * 16777216 + y / 256 % 256 * 65536 + y / 65536 % 256 * 256
      + y / 16777216 % 256) / 256 / 256 % 256 = y / 256 % 256 := by omega
  have e3 : (y % 256 * 16777216 + y / 256 % 256 * 65536 + y / 65536 % 256 * 256
      + y / 16777216 % 256) / 256 / 256 / 256 % 256 = y % 256 := by omega
  rw [e0, e1, e2, e3]

theorem be_bytes_four (y : Nat) : be_bytes 4 y = u32_be y := by
  simp only [be_bytes, le_bytes, u32_be, List.reverse_cons, List.reverse_nil,
    List.nil_append, List.cons_append, Nat.reducePow]
  have e2 : y / 256 / 256 % 256 = y / 65536 % 256 := by omega
  have e3 : y / 256 / 256 / 256 % 256 = y / 16777216 % 256 := by omega
  rw [e2, e3]

theorem le_bytes_bswap16 (y : Nat) : le_bytes 2 (bswap16 y) = u16_be y := by
  simp only [le_bytes, u16_be, bswap16, Nat.reducePow]
  have e0 : (y % 256 * 256 + y / 256 % 256) % 256 = y / 256 % 256 := by omega
  have e1 : (y % 256 * 256 + y / 256 % 256) / 256 % 256 = y % 256 := by omega
  rw [e0, e1]

theorem be_bytes_two (y : Nat) : be_bytes 2 y = u16_be y := by
  simp only [be_bytes, le_bytes, u16_be, List.reverse_cons, List.reverse_nil,
    List.nil_append, List.cons_append, Nat.reducePow]

/-- Whatever the byte order of the host, the four bytes of
`TO_BIGENDIAN32 x` in memory are the big-endian bytes of `x`. -/
theorem object_bytes_TO_BIGENDIAN32 (P : Platform) (x : Nat) :
    object_bytes P 4 (TO_BIGENDIAN32 P x) = u32_be (x % 2 ^ 32) := by
  unfold object_bytes TO_BIGENDIAN32
  cases P.bigEndian
  · simp only [Bool.false_eq_true, if_false]
    exact le_bytes_bswap32 _
  · simp only [if_true]
    exact be_bytes_four _

/-- Whatever the byte order of the host, the two bytes of
`TO_BIGENDIAN16 x` in memory are the big-endian bytes of `x`. -/
theorem object_bytes_TO_BIGENDIAN16 (P : Platform) (x : Nat) :
    object_bytes P 2 (TO_BIGENDIAN16 P x) = u16_be (x % 2 ^ 16) := by
  unfold object_bytes TO_BIGENDIAN16
  cases P.bigEndian
  · simp only [Bool.false_eq_true, if_false]
    exact le_bytes_bswap16 _
  · simp only [if_true]
    exact be_bytes_two _

theorem toNat_ofNat_byte (n : Nat) : (UInt8.ofNat n).toNat = n % 256 := rfl

theorem u32_be_length (x : Nat) : (u32_be x).length = 4 := rfl

theorem u16_be_length (x : Nat) : (u16_be x).length = 2 := rfl

theorem le_value_u32_be (x : Nat) (hx : x < 2 ^ 32) : le_value (u32_be x).reverse = x := by
  simp only [u32_be, List.reverse_cons, List.reverse_nil, List.nil_append, List.cons_append,
    le_value, toNat_ofNat_byte, Nat.reducePow] at hx ⊢
  omega

theorem le_value_u16_be (x : Nat) (hx : x < 2 ^ 16) : le_value (u16_be x).reverse = x := by
  simp only [u16_be, List.reverse_cons, List.reverse_nil, List.nil_append, List.cons_append,
    le_value, toNat_ofNat_byte, Nat.reducePow] at hx ⊢
  omega

/-! ## Lemmas on lists and C strings -/

theorem take_append_len {α : Type} (a b : List α) (n : Nat) (h : a.length = n) :
    (a ++ b).take n = a := by
  subst h; exact List.take_left a b

theorem drop_append_len {α : Type} (a b : List α) (n : Nat) (h : a.length = n) :
    (a ++ b).drop n = b := by
  subst h; exact List.drop_left a b


theorem strlen_takeWhile (m : List UInt8) :
    strlen m = (m.takeWhile (fun b => b != 0)).length := by
  induction m with
  | nil => simp [strlen]
  | cons b rest ih =>
    by_cases hb : b = 0
    · simp [strlen, hb]
    · simp [strlen, hb, ih]

theorem take_strlen (m : List UInt8) :
    m.take (strlen m) = m.takeWhile (fun b => b != 0) := by
  induction m with
  | nil => simp [strlen]
  | cons b rest ih =>
    by_cases hb : b = 0
    · simp [strlen, hb]
    · simp [strlen, hb, ih]

theorem takeWhile_cstr (s : List UInt8) :
    (cstr s).takeWhile (fun b => b != 0) = s.takeWhile (fun b => b != 0) := by
  induction s with
  | nil => simp [cstr]
  | cons b rest ih =>
    by_cases hb : b = 0
    · simp [cstr, hb]
    · simp only [cstr, List.cons_append] at ih ⊢
      simp [List.takeWhile_cons, hb, ih]

theorem takeWhile_nul_free (s : List UInt8) (hs : (0 : UInt8) ∉ s) :
    s.takeWhile (fun b => b != 0) = s := by
  rw [List.takeWhile_eq_self_iff]
  intro a ha
  have : a ≠ 0 := fun h => hs (h ▸ ha)
  simpa using this

theorem strlen_cstr (s : List UInt8) (hs : (0 : UInt8) ∉ s) : strlen (cstr s) = s.length := by
  rw [strlen_takeWhile, takeWhile_cstr, takeWhile_nul_free s hs]

theorem take_strlen_cstr (s : List UInt8) (hs : (0 : UInt8) ∉ s) :
    (cstr s).take (strlen (cstr s)) = s := by
  rw [take_strlen, takeWhile_cstr, takeWhile_nul_free s hs]

/-! ## The output encoder -/

/-- What `fwup_output` appends in framed mode, for any memory behind `type`
and `str`. -/
theorem fwup_output_framed (P : Platform) (G : Globals) (type : List UInt8) (code : Nat)
    (str stdout : List UInt8) (hframed : G.fwup_framing = true) :
    fwup_output P G type code str stdout
      = stdout ++ (u32_be ((strlen str + 4) % 2 ^ 32) ++ type.take 2
          ++ u16_be (code % 2 ^ 16) ++ str.take (strlen str)) := by
  have h4 : ∀ x, (u32_be x).take 4 = u32_be x := fun x => rfl
  have h2 : ∀ x, (u16_be x).take 2 = u16_be x := fun x => rfl
  by_cases hlen : strlen str = 0
  · simp [fwup_output, fwrite, hframed, hlen, object_bytes_TO_BIGENDIAN32,
      object_bytes_TO_BIGENDIAN16, h4, h2]
  · simp [fwup_output, fwrite, hframed, hlen, object_bytes_TO_BIGENDIAN32,
      object_bytes_TO_BIGENDIAN16, h4, h2]

/-- What `fwup_output` appends in framed mode for the C string of a text
without zero byte. -/
theorem fwup_output_framed_cstr (P : Platform) (G : Globals) (type : List UInt8) (code : Nat)
    (s stdout : List UInt8) (hframed : G.fwup_framing = true) (hs : (0 : UInt8) ∉ s) :
    fwup_output P G type code (cstr s) stdout
      = stdout ++ (u32_be ((s.length + 4) % 2 ^ 32) ++ type.take 2
          ++ u16_be (code % 2 ^ 16) ++ s) := by
  rw [fwup_output_framed P G type code (cstr s) stdout hframed, take_strlen_cstr s hs,
    strlen_cstr s hs]

/-- What `fwup_output` appends in a non-framed mode, for any memory behind
`str`. -/
theorem fwup_output_plain (P : Platform) (G : Globals) (type : List UInt8) (code : Nat)
    (str stdout : List UInt8) (hplain : G.fwup_framing = false) :
    fwup_output P G type code str stdout
      = stdout ++ ((if G.fwup_progress_mode = P.PROGRESS_MODE_NORMAL ∧ strlen str > 0
            then [0x0D, 0x1B, 0x5B, 0x4B] else []) ++ str.take (strlen str)) := by
  by_cases hlen : strlen str = 0
  · simp [fwup_output, fwrite, hplain, hlen]
  · by_cases hmode : G.fwup_progress_mode = P.PROGRESS_MODE_NORMAL
    · have hpos : 0 < strlen str := Nat.pos_of_ne_zero hlen
      simp [fwup_output, fwrite, hplain, hlen, hmode, hpos]
    · simp [fwup_output, fwrite, hplain, hlen, hmode]

/-- What `fwup_output` appends in a non-framed mode for the C string of a
text without zero byte. -/
theorem fwup_output_plain_cstr (P : Platform) (G : Globals) (type : List UInt8) (code : Nat)
    (s stdout : List UInt8) (hplain : G.fwup_framing = false) (hs : (0 : UInt8) ∉ s) :
    fwup_output P G type code (cstr s) stdout
      = stdout ++ ((if G.fwup_progress_mode = P.PROGRESS_MODE_NORMAL ∧ s ≠ []
            then [0x0D, 0x1B, 0x5B, 0x4B] else []) ++ s) := by
  have hpos : strlen (cstr s) > 0 ↔ s ≠ [] := by
    rw [strlen_cstr s hs]
    exact List.length_pos
  rw [fwup_output_plain P G type code (cstr s) stdout hplain, take_strlen_cstr s hs]
  by_cases h : G.fwup_progress_mode = P.PROGRESS_MODE_NORMAL ∧ s ≠ []
  · rw [if_pos ⟨h.1, hpos.2 h.2⟩, if_pos h]
  · rw [if_neg (fun h2 => h ⟨h2.1, hpos.1 h2.2⟩), if_neg h]

/-! ## Claims on the output encoder -/

/-- C1: in framed mode, for a 2-byte type tag `t`, a 16-bit code `c` and a
text `s` without zero byte with `len(s) + 4 < 2^32`, `fwup_output` appends to
standard output exactly `u32_be(len(s) + 4) || t || u16_be(c) || s`; for the
empty text these are the 8 header bytes `00 00 00 04 || t || u16_be(c)`. -/
theorem fwup_output_framed_record (P : Platform) (G : Globals) (t : List UInt8) (c : Nat)
    (s stdout : List UInt8) (hframed : G.fwup_framing = true) (ht : t.length = 2)
    (hc : c < 2 ^ 16) (hs : (0 : UInt8) ∉ s) (hlen : s.length + 4 < 2 ^ 32) :
    fwup_output P G t c (cstr s) stdout
        = stdout ++ (u32_be (s.length + 4) ++ t ++ u16_be c ++ s)
      ∧ (s = [] →
          fwup_output P G t c (cstr s) stdout = stdout ++ ([0, 0, 0, 4] ++ t ++ u16_be c)) := by
  have ht2 : t.take 2 = t := by rw [← ht, List.take_length]
  have main : fwup_output P G t c (cstr s) stdout
      = stdout ++ (u32_be (s.length + 4) ++ t ++ u16_be c ++ s) := by
    rw [fwup_output_framed_cstr P G t c s stdout hframed hs, ht2,
      Nat.mod_eq_of_lt hlen, Nat.mod_eq_of_lt hc]
  refine ⟨main, ?_⟩
  intro hnil
  have h4 : u32_be 4 = [0, 0, 0, 4] := by decide
  rw [main, hnil]
  simp [h4]

/-- C1, at a concrete input: the tag `WN`, code 258 and the text `hi`. -/
theorem fwup_output_framed_record_witness :
    fwup_output sample_platform { fwup_framing := true, fwup_progress_mode := 0 }
        (ascii "WN") 258 (cstr (ascii "hi")) [0x2A]
      = [0x2A, 0, 0, 0, 6, 0x57, 0x4E, 1, 2, 0x68, 0x69] :=
  (fwup_output_framed_record sample_platform { fwup_framing := true, fwup_progress_mode := 0 }
    (ascii "WN") 258 (ascii "hi") [0x2A] rfl (by decide) (by decide) (by decide)
    (by decide)).1

/-- C2: round trip over the wire format. In framed mode, for a 2-byte type
`t`, a 16-bit code `c`, a payload `p` without zero byte with
`len(p) + 4 < 2^32` (non-empty or not) and any bytes `rest`, the reader of the
specification, run on the output of `fwup_output(t, c, p)` followed by `rest`,
recovers exactly `(t, c, p)` and leaves exactly `rest` unread. -/
theorem fwup_output_read_frame_roundtrip (P : Platform) (G : Globals) (t : List UInt8)
    (c : Nat) (p rest : List UInt8) (hframed : G.fwup_framing = true) (ht : t.length = 2)
    (hc : c < 2 ^ 16) (hp : (0 : UInt8) ∉ p) (hlen : p.length + 4 < 2 ^ 32) :
    spec_read_frame (fwup_output P G t c (cstr p) [] ++ rest)
      = some ({ type := t, code := c, payload := p }, rest) := by
  have ht2 : t.take 2 = t := by rw [← ht, List.take_length]
  rw [fwup_output_framed_cstr P G t c p [] hframed hp, ht2,
    Nat.mod_eq_of_lt hlen, Nat.mod_eq_of_lt hc]
  have hin : [] ++ (u32_be (p.length + 4) ++ t ++ u16_be c ++ p) ++ rest
      = u32_be (p.length + 4) ++ ((t ++ (u16_be c ++ p)) ++ rest) := by
    simp [List.append_assoc]
  have hbody : (t ++ (u16_be c ++ p)).length = p.length + 4 := by
    simp [ht, u16_be_length]; omega
  have htake4 : (u32_be (p.length + 4) ++ ((t ++ (u16_be c ++ p)) ++ rest)).take 4
      = u32_be (p.length + 4) := take_append_len _ _ 4 (u32_be_length _)
  have hdrop4 : (u32_be (p.length + 4) ++ ((t ++ (u16_be c ++ p)) ++ rest)).drop 4
      = (t ++ (u16_be c ++ p)) ++ rest := drop_append_len _ _ 4 (u32_be_length _)
  have hL : le_value (u32_be (p.length + 4)).reverse = p.length + 4 :=
    le_value_u32_be _ hlen
  have hbt : ((t ++ (u16_be c ++ p)) ++ rest).take (p.length + 4) = t ++ (u16_be c ++ p) :=
    take_append_len _ _ _ hbody
  have hbd : ((t ++ (u16_be c ++ p)) ++ rest).drop (p.length + 4) = rest :=
    drop_append_len _ _ _ hbody
  have ht_take : (t ++ (u16_be c ++ p)).take 2 = t := take_append_len _ _ 2 ht
  have ht_drop : (t ++ (u16_be c ++ p)).drop 2 = u16_be c ++ p := drop_append_len _ _ 2 ht
  have hc_take : (u16_be c ++ p).take 2 = u16_be c := take_append_len _ _ 2 (u16_be_length c)
  have hp_drop : (t ++ (u16_be c ++ p)).drop 4 = p := by
    have h4 : (t ++ u16_be c).length = 4 := by simp [ht, u16_be_length]
    rw [← List.append_assoc]
    exact drop_append_len _ _ 4 h4
  have hlen1 : ¬ (u32_be (p.length + 4) ++ ((t ++ (u16_be c ++ p)) ++ rest)).length < 4 := by
    simp [u32_be_length]
  have hlen2 : ¬ (p.length + 4 < 4 ∨ ((t ++ (u16_be c ++ p)) ++ rest).length < p.length + 4) := by
    rw [List.length_append, hbody]; omega
  rw [hin]
  unfold spec_read_frame
  rw [if_neg hlen1]
  simp only [htake4, hdrop4, hL]
  rw [if_neg hlen2]
  simp only [hbt, hbd, ht_take, ht_drop, hc_take, hp_drop, le_value_u16_be c hc]

/-- C2, at a concrete input: the frame of `(WN, 258, hi)` followed by two
more bytes. -/
theorem fwup_output_read_frame_roundtrip_witness :
    spec_read_frame (fwup_output sample_platform { fwup_framing := true, fwup_progress_mode := 0 }
        (ascii "WN") 258 (cstr (ascii "hi")) [] ++ [7, 0])
      = some ({ type := ascii "WN", code := 258, payload := ascii "hi" }, [7, 0]) :=
  fwup_output_read_frame_roundtrip sample_platform
    { fwup_framing := true, fwup_progress_mode := 0 } (ascii "WN") 258 (ascii "hi") [7, 0]
    rfl (by decide) (by decide) (by decide) (by decide)

/-- C3, refuted as stated: the text `41 00 42` has three bytes, one of them
zero. In framed mode `fwup_output` writes the length field 5 and the single
text byte `41`, not the length field 7 followed by all three bytes. -/
theorem fwup_output_framed_embedded_zero :
    fwup_output sample_platform { fwup_framing := true, fwup_progress_mode := 0 }
        (ascii "WN") 0 (cstr [0x41, 0, 0x42]) []
      = [0, 0, 0, 5, 0x57, 0x4E, 0, 0, 0x41]
    ∧ fwup_output sample_platform { fwup_framing := true, fwup_progress_mode := 0 }
        (ascii "WN") 0 (cstr [0x41, 0, 0x42]) []
      ≠ u32_be ([0x41, 0, 0x42].length + 4) ++ ascii "WN" ++ u16_be 0 ++ [0x41, 0, 0x42] := by
  decide

/-- C3, amended: in framed mode `fwup_output` writes the text up to its first
zero byte. For every text, with `written` its bytes in front of the first zero
byte, the length field is `len(written) + 4` (modulo `2^32`) and the header is
followed by exactly the bytes of `written`; for a text without zero byte,
control characters or not, `written` is the whole text. -/
theorem fwup_output_framed_text (P : Platform) (G : Globals) (t : List UInt8) (c : Nat)
    (text stdout : List UInt8) (hframed : G.fwup_framing = true) (ht : t.length = 2) :
    fwup_output P G t c (cstr text) stdout
        = stdout ++ (u32_be (((text.takeWhile (fun b => b != 0)).length + 4) % 2 ^ 32) ++ t
            ++ u16_be (c % 2 ^ 16) ++ text.takeWhile (fun b => b != 0))
      ∧ ((0 : UInt8) ∉ text → text.takeWhile (fun b => b != 0) = text) := by
  have ht2 : t.take 2 = t := by rw [← ht, List.take_length]
  refine ⟨?_, takeWhile_nul_free text⟩
  rw [fwup_output_framed P G t c (cstr text) stdout hframed, take_strlen, strlen_takeWhile,
    takeWhile_cstr, ht2]

/-- C3 amended, at a concrete input: a text of control characters without
zero byte is written whole. -/
theorem fwup_output_framed_text_witness :
    fwup_output sample_platform { fwup_framing := true, fwup_progress_mode := 0 }
        (ascii "WN") 0 (cstr [0x1B, 0x07, 0xFF]) []
      = [0, 0, 0, 7, 0x57, 0x4E, 0, 0, 0x1B, 0x07, 0xFF] :=
  (fwup_output_framed_text sample_platform { fwup_framing := true, fwup_progress_mode := 0 }
    (ascii "WN") 0 [0x1B, 0x07, 0xFF] [] rfl (by decide)).1

/-- C4: in a non-framed mode, for every type, code and text `s` without zero
byte, `fwup_output` writes no header and no newline: when the progress mode is
`PROGRESS_MODE_NORMAL` and `s` is non-empty it appends `0D 1B 5B 4B` followed
by `s`, and in every other non-framed case it appends exactly `s`. -/
theorem fwup_output_plain_text (P : Platform) (G : Globals) (t : List UInt8) (c : Nat)
    (s stdout : List UInt8) (hplain : G.fwup_framing = false) (hs : (0 : UInt8) ∉ s) :
    (G.fwup_progress_mode = P.PROGRESS_MODE_NORMAL ∧ s ≠ [] →
        fwup_output P G t c (cstr s) stdout = stdout ++ ([0x0D, 0x1B, 0x5B, 0x4B] ++ s))
      ∧ (¬ (G.fwup_progress_mode = P.PROGRESS_MODE_NORMAL ∧ s ≠ []) →
        fwup_output P G t c (cstr s) stdout = stdout ++ s) := by
  rw [fwup_output_plain_cstr P G t c s stdout hplain hs]
  constructor
  · intro h
    rw [if_pos h]
  · intro h
    rw [if_neg h, List.nil_append]

/-- C4, at a concrete input: the text `hi` while a progress bar is shown. -/
theorem fwup_output_plain_text_witness :
    fwup_output sample_platform { fwup_framing := false, fwup_progress_mode := 2 }
        (ascii "WN") 0 (cstr (ascii "hi")) [0x2A]
      = [0x2A] ++ ([0x0D, 0x1B, 0x5B, 0x4B] ++ ascii "hi") :=
  (fwup_output_plain_text sample_platform { fwup_framing := false, fwup_progress_mode := 2 }
    (ascii "WN") 0 (ascii "hi") [0x2A] rfl (by decide)).1 (by decide)

/-! ## Claims on the diagnostic reporters -/

/-- C5: in framed mode, for a 2-byte warning tag and every formatted message
`m` without zero byte with `len(m) + 4 < 2^32`, `fwup_warnx` appends to
standard output exactly `u32_be(len(m) + 4) || FRAMING_TYPE_WARNING || 00 00
|| m`, with no `fwup: ` in front and no newline after, and returns; for the
message `disk full` these are `00 00 00 0D`, the tag, `00 00` and the nine
bytes of the message. -/
theorem fwup_warnx_framed (P : Platform) (G : Globals) (m stdout : List UInt8)
    (hframed : G.fwup_framing = true) (htag : P.FRAMING_TYPE_WARNING.length = 2)
    (hm : (0 : UInt8) ∉ m) (hlen : m.length + 4 < 2 ^ 32) :
    fwup_warnx P G m stdout
        = Outcome.returned
            (stdout ++ (u32_be (m.length + 4) ++ P.FRAMING_TYPE_WARNING ++ [0, 0] ++ m))
      ∧ fwup_warnx P G (ascii "disk full") stdout
        = Outcome.returned
            (stdout ++ ([0, 0, 0, 0x0D] ++ P.FRAMING_TYPE_WARNING ++ [0, 0]
              ++ ascii "disk full")) := by
  have htag2 : P.FRAMING_TYPE_WARNING.take 2 = P.FRAMING_TYPE_WARNING := by
    rw [← htag, List.take_length]
  have h0 : u16_be (0 % 2 ^ 16) = [0, 0] := by decide
  have hstr : ∀ x : List UInt8, (ssvprintf simple_string_init x).str = x := fun x => rfl
  have key : ∀ x : List UInt8, (0 : UInt8) ∉ x →
      fwup_warnx P G x stdout = Outcome.returned
        (stdout ++ (u32_be ((x.length + 4) % 2 ^ 32) ++ P.FRAMING_TYPE_WARNING ++ [0, 0] ++ x)) := by
    intro x hx
    simp only [fwup_warnx, hframed, if_true, hstr]
    rw [fwup_output_framed_cstr P G _ 0 x stdout hframed hx, htag2, h0]
  constructor
  · rw [key m hm, Nat.mod_eq_of_lt hlen]
  · rw [key _ (by decide)]
    have h13 : u32_be (((ascii "disk full").length + 4) % 2 ^ 32) = [0, 0, 0, 0x0D] := by decide
    rw [h13]

/-- C5, at a concrete input: the message `disk full` with the tag `WN`. -/
theorem fwup_warnx_framed_witness :
    fwup_warnx sample_platform { fwup_framing := true, fwup_progress_mode := 0 }
        (ascii "disk full") []
      = Outcome.returned ([] ++ ([0, 0, 0, 0x0D] ++ ascii "WN" ++ [0, 0] ++ ascii "disk full")) :=
  (fwup_warnx_framed sample_platform { fwup_framing := true, fwup_progress_mode := 0 }
    (ascii "disk full") [] rfl (by decide) (by decide) (by decide)).2

/-- C6, refuted as stated: in the non-framed mode with
`fwup_progress_mode = PROGRESS_MODE_NORMAL` the warning `disk full` does not
come out as `fwup: disk full` and a newline: the four bytes `0D 1B 5B 4B` are
written in front of it. -/
theorem fwup_warnx_plain_progress_bar :
    fwup_warnx sample_platform { fwup_framing := false, fwup_progress_mode := 2 }
        (ascii "disk full") []
      ≠ Outcome.returned (ascii "fwup: disk full\n")
    ∧ fwup_warnx sample_platform { fwup_framing := false, fwup_progress_mode := 2 }
        (ascii "disk full") []
      = Outcome.returned ([0x0D, 0x1B, 0x5B, 0x4B] ++ ascii "fwup: disk full\n") := by
  decide

/-- C6, amended: in a non-framed mode, for every formatted warning message `m`
without zero byte, `fwup_warnx` returns after appending to standard output
exactly `fwup: `, `m` and a newline when the progress mode is not
`PROGRESS_MODE_NORMAL`, and the same bytes behind `0D 1B 5B 4B` when it is. -/
theorem fwup_warnx_plain (P : Platform) (G : Globals) (m stdout : List UInt8)
    (hplain : G.fwup_framing = false) (hm : (0 : UInt8) ∉ m) :
    (G.fwup_progress_mode ≠ P.PROGRESS_MODE_NORMAL →
        fwup_warnx P G m stdout
          = Outcome.returned (stdout ++ (ascii "fwup: " ++ m ++ ascii "\n")))
      ∧ (G.fwup_progress_mode = P.PROGRESS_MODE_NORMAL →
        fwup_warnx P G m stdout
          = Outcome.returned
              (stdout ++ ([0x0D, 0x1B, 0x5B, 0x4B] ++ (ascii "fwup: " ++ m ++ ascii "\n")))) := by
  have hstr : (ssappend (ssvprintf (ssappend simple_string_init (ascii "fwup: ")) m)
      (ascii "\n")).str = ascii "fwup: " ++ m ++ ascii "\n" := rfl
  have hfree : (0 : UInt8) ∉ ascii "fwup: " ++ m ++ ascii "\n" := by
    intro h
    rw [List.mem_append, List.mem_append] at h
    rcases h with (h | h) | h
    · exact absurd h (by decide)
    · exact hm h
    · exact absurd h (by decide)
  have hne : ascii "fwup: " ++ m ++ ascii "\n" ≠ [] := by
    simp [ascii]
  have hout := fwup_output_plain_cstr P G P.FRAMING_TYPE_WARNING 0
    (ascii "fwup: " ++ m ++ ascii "\n") stdout hplain hfree
  constructor
  · intro hmode
    simp only [fwup_warnx, hplain, Bool.false_eq_true, if_false, hstr]
    rw [hout, if_neg (fun h => hmode h.1), List.nil_append]
  · intro hmode
    simp only [fwup_warnx, hplain, Bool.false_eq_true, if_false, hstr]
    rw [hout, if_pos ⟨hmode, hne⟩]

/-- C6 amended, at a concrete input: the warning `disk full` with no progress
bar shown. -/
theorem fwup_warnx_plain_witness :
    fwup_warnx sample_platform { fwup_framing := false, fwup_progress_mode := 0 }
        (ascii "disk full") []
      = Outcome.returned ([] ++ (ascii "fwup: " ++ ascii "disk full" ++ ascii "\n")) :=
  (fwup_warnx_plain sample_platform { fwup_framing := false, fwup_progress_mode := 0 }
    (ascii "disk full") [] rfl (by decide)).1 (by decide)

/-- C7: for every exit status `st`, formatted message `m` and value of
`errno` at entry, `fwup_err` calls `fwup_output` with the tag
`FRAMING_TYPE_ERROR`, the code 0 and the text `m` in framed mode or `fwup: `,
`m`, a colon and a blank, `strerror` of the value of `errno` at entry and a
newline in a non-framed mode; the process then exits with status `st`, so the
call does not return. Whatever values `errno` takes after entry have no part
in the result. -/
theorem fwup_err_exits (P : Platform) (G : Globals) (strerror : Int → List UInt8)
    (errno : Nat → Int) (st : Int) (m stdout : List UInt8) :
    fwup_err P G strerror errno st m stdout
      = Outcome.exited st
          (fwup_output P G P.FRAMING_TYPE_ERROR 0
            (cstr (if G.fwup_framing then m
              else ascii "fwup: " ++ m ++ ascii ": " ++ strerror (errno 0) ++ ascii "\n"))
            stdout) := by
  cases hG : G.fwup_framing
  · simp [fwup_err, hG, simple_string_init, ssappend, ssvprintf, ssprintf_colon_s_newline,
      List.append_assoc]
  · simp [fwup_err, hG, simple_string_init, ssvprintf]

/-! ## Claims on the last-error slot -/

theorem after_calls_snoc (calls : List (Option (Nat × List UInt8)))
    (r : Option (Nat × List UInt8)) :
    after_calls (calls ++ [r]) = set_last_error r (after_calls calls) := by
  simp [after_calls, List.foldl_append]

/-- The invariant of the slot: either the pointer is `NULL` and nothing is
allocated, or it points to the one string that is allocated. -/
theorem after_calls_owns (calls : List (Option (Nat × List UInt8))) :
    ((after_calls calls).last_error_message = none ∧ (after_calls calls).heap = [])
      ∨ ∃ p text, (after_calls calls).last_error_message = some p
          ∧ (after_calls calls).heap = [(p, text)] := by
  induction calls using List.reverseRecOn with
  | nil => left; exact ⟨rfl, rfl⟩
  | append_singleton calls r ih =>
    rw [after_calls_snoc]
    have hfreed : (match (after_calls calls).last_error_message with
        | some p => free p (after_calls calls).heap
        | none => (after_calls calls).heap) = [] := by
      rcases ih with ⟨h1, h2⟩ | ⟨p, text, h1, h2⟩
      · rw [h1, h2]
      · rw [h1, h2]; simp [free]
    cases r with
    | none =>
      left
      simp only [set_last_error, hfreed, and_self]
    | some v =>
      right
      obtain ⟨a, text⟩ := v
      exact ⟨a, text, by simp only [set_last_error], by simp only [set_last_error, hfreed]⟩

/-- C8: at program start `last_error` gives `none`; after any sequence of
`set_last_error` calls of which the last one formats with success,
`last_error` gives exactly the text formatted by that last call, and that
string is the only one allocated (for example `x=5` after a call that formats
this text); in every reachable state `last_error` gives a string, never a null
pointer, and the slot owns at most one string. -/
theorem last_error_slot :
    last_error ErrorSlot.initial = some (ascii "none")
      ∧ (∀ (calls : List (Option (Nat × List UInt8))) (address : Nat) (text : List UInt8),
          last_error (after_calls (calls ++ [some (address, text)])) = some text
            ∧ (after_calls (calls ++ [some (address, text)])).heap = [(address, text)])
      ∧ last_error (after_calls [some (4096, ascii "y=1"), some (8192, ascii "x=5")])
          = some (ascii "x=5")
      ∧ (∀ calls : List (Option (Nat × List UInt8)),
          (∃ text, last_error (after_calls calls) = some text)
            ∧ (after_calls calls).heap.length ≤ 1) := by
  refine ⟨rfl, ?_, by decide, ?_⟩
  · intro calls address text
    rw [after_calls_snoc]
    have hfreed : (match (after_calls calls).last_error_message with
        | some p => free p (after_calls calls).heap
        | none => (after_calls calls).heap) = [] := by
      rcases after_calls_owns calls with ⟨h1, h2⟩ | ⟨p, t, h1, h2⟩
      · rw [h1, h2]
      · rw [h1, h2]; simp [free]
    constructor
    · simp [set_last_error, last_error, string_at]
    · simp only [set_last_error, hfreed]
  · intro calls
    rcases after_calls_owns calls with ⟨h1, h2⟩ | ⟨p, t, h1, h2⟩
    · exact ⟨⟨ascii "none", by simp [last_error, h1]⟩, by simp [h2]⟩
    · exact ⟨⟨t, by simp [last_error, h1, h2, string_at]⟩, by simp [h2]⟩

/-! ## Claims on the page-aligned allocator -/

theorem le_value_le_bytes (n x : Nat) : le_value (le_bytes n x) = x % 256 ^ n := by
  induction n generalizing x with
  | zero => simp [le_bytes, le_value, Nat.mod_one]
  | succ n ih =>
    rw [le_bytes, le_value, ih, toNat_ofNat_byte, Nat.mod_mod, pow_succ, Nat.mul_comm (256 ^ n) 256,
      Nat.mod_mul]

theorem le_bytes_length (n x : Nat) : (le_bytes n x).length = n := by
  induction n generalizing x with
  | zero => rfl
  | succ n ih => rw [le_bytes, List.length_cons, ih]

theorem object_bytes_length (P : Platform) (n x : Nat) : (object_bytes P n x).length = n := by
  unfold object_bytes be_bytes
  split
  · rw [List.length_reverse, le_bytes_length]
  · exact le_bytes_length n x

/-- A value stored in host byte order is read back unchanged, up to the
width of the store. -/
theorem object_value_object_bytes (P : Platform) (n x : Nat) :
    object_value P (object_bytes P n x) = x % 256 ^ n := by
  unfold object_value object_bytes be_bytes
  cases P.bigEndian
  · simp only [Bool.false_eq_true, if_false]
    exact le_value_le_bytes n x
  · simp only [if_true, List.reverse_reverse]
    exact le_value_le_bytes n x

theorem load_bytes_store_bytes (mem : Memory) (addr : Nat) (bs : List UInt8) :
    load_bytes (store_bytes mem addr bs) addr bs.length = bs := by
  apply List.ext_getElem
  · simp [load_bytes]
  · intro i h1 h2
    simp [load_bytes, store_bytes, h2]

theorem load_bytes_congr (m1 m2 : Memory) (addr n : Nat)
    (h : ∀ x, addr ≤ x → x < addr + n → m1 x = m2 x) :
    load_bytes m1 addr n = load_bytes m2 addr n := by
  unfold load_bytes
  apply List.map_congr_left
  intro i hi
  rw [List.mem_range] at hi
  exact h (addr + i) (Nat.le_add_right _ _) (Nat.add_lt_add_left hi _)

theorem land_mod_two_pow (y m k : Nat) (hm : m % 2 ^ k = 0) : (y &&& m) % 2 ^ k = 0 := by
  rw [← Nat.and_pow_two_sub_one_eq_mod, Nat.land_assoc, Nat.and_pow_two_sub_one_eq_mod, hm]
  simp

/-- For a page size `2 ^ k` that fits a `size_t`, the mask `~(pagesize - 1)`
is `2 ^ bits - 2 ^ k`. -/
theorem size_not_mask (P : Platform) (k : Nat) (hk : k < P.bits) :
    size_not P (size_sub P (2 ^ k) 1) = 2 ^ P.bits - 2 ^ k := by
  have hlt : 2 ^ k < 2 ^ P.bits := Nat.pow_lt_pow_right (by norm_num) hk
  have hpos : 0 < 2 ^ k := Nat.pos_pow_of_pos k (by norm_num)
  have h1 : 1 % 2 ^ P.bits = 1 := Nat.mod_eq_of_lt (by omega)
  have hsub : size_sub P (2 ^ k) 1 = 2 ^ k - 1 := by
    unfold size_sub
    rw [h1]
    have : 2 ^ k + (2 ^ P.bits - 1) = (2 ^ k - 1) + 2 ^ P.bits := by omega
    rw [this, Nat.add_mod_right]
    exact Nat.mod_eq_of_lt (by omega)
  unfold size_not
  rw [hsub, Nat.mod_eq_of_lt (by omega)]
  omega

/-- For a page size `2 ^ k` too large for a `size_t`, `pagesize - 1` wraps to
the largest `size_t` and the mask `~(pagesize - 1)` is zero. -/
theorem size_not_mask_wrapped (P : Platform) (k : Nat) (hk : ¬ k < P.bits) :
    size_not P (size_sub P (2 ^ k) 1) = 0 := by
  have hdvd : 2 ^ P.bits ∣ 2 ^ k := Nat.pow_dvd_pow 2 (Nat.le_of_not_lt hk)
  have hpos : 0 < 2 ^ P.bits := Nat.pos_pow_of_pos _ (by norm_num)
  have hsub : size_sub P (2 ^ k) 1 = (2 ^ P.bits - 1 % 2 ^ P.bits) % 2 ^ P.bits := by
    unfold size_sub
    rw [Nat.add_mod, Nat.mod_eq_zero_of_dvd hdvd, Nat.zero_add, Nat.mod_mod]
  rw [hsub]
  unfold size_not
  rw [Nat.mod_mod]
  rcases Nat.eq_or_lt_of_le (Nat.succ_le_of_lt hpos) with h1 | h1
  · rw [← h1]
  · rw [Nat.mod_eq_of_lt h1, Nat.mod_eq_of_lt (by omega)]
    omega

/-- What is known when `alloc_page_aligned` returns. -/
theorem alloc_page_aligned_returned (P : Platform) (sysconf : Int) (original size : Nat)
    (σ σ' : AllocState) (memptr : Nat)
    (hret : alloc_page_aligned P sysconf original size σ = AllocOutcome.returned memptr σ') :
    original ≠ 0
      ∧ memptr = (size_add P original
            (size_sub P (size_add P (get_pagesize P sysconf σ.cached_pagesize).1
              (get_pagesize P sysconf σ.cached_pagesize).1) 1) % 2 ^ 64
          &&& size_not P (size_sub P (get_pagesize P sysconf σ.cached_pagesize).1 1)) % 2 ^ P.bits
      ∧ P.ptrBytes ≤ memptr
      ∧ original ≤ memptr - P.ptrBytes
      ∧ σ'.mem = store_bytes σ.mem (memptr - P.ptrBytes) (object_bytes P P.ptrBytes original) := by
  unfold alloc_page_aligned at hret
  simp only at hret
  split at hret
  · exact absurd hret (by simp)
  · rename_i h0
    split at hret
    · rename_i hin
      injection hret with h1 h2
      subst h1
      subst h2
      exact ⟨h0, rfl, hin.1, hin.2.1, rfl⟩
    · exact absurd hret (by simp)

/-- Why `alloc_page_aligned_multiple` carries the platform fact that the page
size is a power of two: the mask `~(pagesize - 1)` aligns for such sizes only.
Were `sysconf` to report 12288 bytes, which no platform does, `get_pagesize`
would pass it on, and with `malloc` returning 69632 the address would be
81920, which is no multiple of 12288. -/
theorem alloc_page_aligned_not_multiple :
    (get_pagesize sample_platform 12288 0).1 = 12288
      ∧ (alloc_page_aligned sample_platform 12288 69632 100
          { cached_pagesize := 0, mem := fun _ => 0 }).address = some 81920
      ∧ 81920 % (get_pagesize sample_platform 12288 0).1 ≠ 0 := by
  decide

/-- C9: for every requested size and every backing address returned by
`malloc`, the address that the synthesized path of `alloc_page_aligned` stores
in `*memptr` is a multiple of the page size given by `get_pagesize`. The page
size of a platform is a power of two, as is the fallback 4096; `hpow` is that
platform fact. -/
theorem alloc_page_aligned_multiple (P : Platform) (sysconf : Int) (original size : Nat)
    (σ σ' : AllocState) (memptr k : Nat)
    (hpow : (get_pagesize P sysconf σ.cached_pagesize).1 = 2 ^ k)
    (hret : alloc_page_aligned P sysconf original size σ = AllocOutcome.returned memptr σ') :
    memptr % (get_pagesize P sysconf σ.cached_pagesize).1 = 0 := by
  obtain ⟨_, hptr, _, _, _⟩ := alloc_page_aligned_returned P sysconf original size σ σ' memptr hret
  rw [hpow] at hptr ⊢
  by_cases hk : k < P.bits
  · have hdvd : 2 ^ k ∣ 2 ^ P.bits := Nat.pow_dvd_pow 2 (Nat.le_of_lt hk)
    have hmask : (2 ^ P.bits - 2 ^ k) % 2 ^ k = 0 :=
      Nat.mod_eq_zero_of_dvd (Nat.dvd_sub' hdvd (dvd_refl _))
    rw [hptr, size_not_mask P k hk, Nat.mod_mod_of_dvd _ hdvd]
    exact land_mod_two_pow _ _ k hmask
  · rw [hptr, size_not_mask_wrapped P k hk, Nat.and_zero, Nat.zero_mod, Nat.zero_mod]

/-- C9, at a concrete input: with the page size 4096 and the backing address
69633 the address returned is 77824, which is 19 pages. -/
theorem alloc_page_aligned_multiple_witness :
    77824 % (get_pagesize sample_platform 4096 0).1 = 0 :=
  alloc_page_aligned_multiple sample_platform 4096 69633 100
    { cached_pagesize := 0, mem := fun _ => 0 }
    { cached_pagesize := 4096,
      mem := store_bytes (fun _ => 0) (77824 - 8) (object_bytes sample_platform 8 69633) }
    77824 12 (by decide) (by rfl)

/-- C10: allocate and free round trip on the synthesized path. For every
size and every backing address `original` (a pointer value), if
`alloc_page_aligned` returns the address `memptr` and the caller then changes
memory only inside `[memptr, memptr + size)`, `free_page_aligned(memptr)`
reads from the pointer-sized slot in front of `memptr` exactly `original` and
passes that address to `free`; it lies below `memptr`, so the address released
is never `memptr` itself. -/
theorem free_page_aligned_recovers (P : Platform) (sysconf : Int) (original size : Nat)
    (σ σ' : AllocState) (memptr : Nat) (mem : Memory)
    (horig : original < 2 ^ P.bits)
    (hret : alloc_page_aligned P sysconf original size σ = AllocOutcome.returned memptr σ')
    (hcaller : ∀ x, ¬ (memptr ≤ x ∧ x < memptr + size) → mem x = σ'.mem x) :
    free_page_aligned P mem memptr = original ∧ original < memptr := by
  obtain ⟨h0, _, hge, hlow, hmem⟩ :=
    alloc_page_aligned_returned P sysconf original size σ σ' memptr hret
  have hbytes : 0 < P.ptrBytes := by
    rcases Nat.eq_zero_or_pos P.ptrBytes with hz | hz
    · exfalso
      have hb : P.bits = 0 := by unfold Platform.bits; rw [hz]
      rw [hb] at horig
      exact h0 (by omega)
    · exact hz
  have hload : load_bytes mem (memptr - P.ptrBytes) P.ptrBytes
      = object_bytes P P.ptrBytes original := by
    have h1 : load_bytes mem (memptr - P.ptrBytes) P.ptrBytes
        = load_bytes σ'.mem (memptr - P.ptrBytes) P.ptrBytes := by
      apply load_bytes_congr
      intro x _ hx2
      exact hcaller x (by omega)
    rw [h1, hmem]
    have h2 := load_bytes_store_bytes σ.mem (memptr - P.ptrBytes)
      (object_bytes P P.ptrBytes original)
    rw [object_bytes_length] at h2
    exact h2
  have hpow : 256 ^ P.ptrBytes = 2 ^ P.bits := by
    unfold Platform.bits
    rw [pow_mul]
    norm_num
  refine ⟨?_, by omega⟩
  unfold free_page_aligned
  simp only
  rw [hload, object_value_object_bytes, hpow, Nat.mod_eq_of_lt horig]

/-- C10, at a concrete input: the block of 100 bytes at 77824 backed by the
allocation at 69633; the caller overwrites the first three bytes of its block
and the free still finds 69633. -/
theorem free_page_aligned_recovers_witness :
    free_page_aligned sample_platform
        (store_bytes
          (store_bytes (fun _ => 0) (77824 - 8) (object_bytes sample_platform 8 69633))
          77824 [1, 2, 3])
        77824 = 69633
      ∧ 69633 < 77824 :=
  free_page_aligned_recovers sample_platform 4096 69633 100
    { cached_pagesize := 0, mem := fun _ => 0 }
    { cached_pagesize := 4096,
      mem := store_bytes (fun _ => 0) (77824 - 8) (object_bytes sample_platform 8 69633) }
    77824
    (store_bytes
      (store_bytes (fun _ => 0) (77824 - 8) (object_bytes sample_platform 8 69633))
      77824 [1, 2, 3])
    (by decide) (by rfl)
    (by
      intro x hx
      have hx2 : ¬ (77824 ≤ x ∧ x < 77824 + [(1 : UInt8), 2, 3].length) := by
        intro h
        apply hx
        simp only [List.length_cons, List.length_nil] at h
        omega
      show (if 77824 ≤ x ∧ x < 77824 + [(1 : UInt8), 2, 3].length then _ else _) = _
      rw [if_neg hx2])

/-- C11: on the synthesized path a failed `malloc` (a `NULL` result) makes
`alloc_page_aligned` take the `fwup_err` exit with `EXIT_FAILURE`, for every
size. On the native path the failure test is `posix_memalign(...) < 0`, and
`posix_memalign` reports a failure by a positive error number: for every error
number the call returns to its caller with whatever pointer is in `*memptr`,
as it does for `ENOMEM` (12) with a null pointer. -/
theorem alloc_page_aligned_failure_paths :
    (∀ (P : Platform) (sysconf : Int) (size : Nat) (σ : AllocState),
        alloc_page_aligned P sysconf 0 size σ = AllocOutcome.fatal P.EXIT_FAILURE)
      ∧ (∀ (P : Platform) (sysconf : Int) (error_number memptr size : Nat) (σ : AllocState),
        (alloc_page_aligned_native P sysconf (fun _ _ => ((error_number : Int), memptr)) size σ).address
          = some memptr)
      ∧ (alloc_page_aligned_native sample_platform 4096 (fun _ _ => (12, 0)) 100
          { cached_pagesize := 0, mem := fun _ => 0 }).address = some 0 := by
  refine ⟨?_, ?_, by decide⟩
  · intro P sysconf size σ
    simp [alloc_page_aligned]
  · intro P sysconf error_number memptr size σ
    have h : ¬ ((error_number : Int) < 0) := by omega
    simp [alloc_page_aligned_native, h, AllocOutcome.address]

/-! ## Claims on the hex codec -/

theorem byte_cases (p : UInt8 → Prop) (h : ∀ n : Fin 256, p (UInt8.ofNat n.val)) (c : UInt8) :
    p c := by
  have h1 := h ⟨c.toNat, UInt8.toNat_lt_size c⟩
  have e : UInt8.ofNat c.toNat = c := by
    apply UInt8.toNat.inj
    rw [toNat_ofNat_byte]
    exact Nat.mod_eq_of_lt (UInt8.toNat_lt_size c)
  rw [e] at h1
  exact h1

set_option maxRecDepth 100000 in
/-- The `switch` of `hexchar_to_int` gives 255 exactly off the hex digits,
and the value of the digit on them. -/
theorem hexchar_to_int_spec (c : UInt8) :
    (hexchar_to_int c = 255 ↔ ¬ is_hex_digit c)
      ∧ (is_hex_digit c → hexchar_to_int c = hex_value c ∧ hex_value c < 16) := by
  revert c
  apply byte_cases
  decide

set_option maxRecDepth 100000 in
theorem shift_or_nibbles : ∀ a b : Fin 16, (a.val <<< 4 ||| b.val) % 256 = 16 * a.val + b.val := by
  decide

theorem shift_or_lt (a b : Nat) (ha : a < 16) (hb : b < 16) :
    (a <<< 4 ||| b) % 256 = 16 * a + b :=
  shift_or_nibbles ⟨a, ha⟩ ⟨b, hb⟩

theorem spec_hex_decode_length (k : Nat) (s : List UInt8) (hk : s.length = 2 * k) :
    (spec_hex_decode s).length = k := by
  induction k generalizing s with
  | zero =>
    have : s = [] := List.length_eq_zero.1 (by omega)
    subst this
    rfl
  | succ k ih =>
    match s, hk with
    | a :: b :: rest, hk =>
      simp only [spec_hex_decode, List.length_cons]
      rw [ih rest (by simp only [List.length_cons] at hk; omega)]

theorem spec_hex_decode_getD (k : Nat) (s : List UInt8) (hk : s.length = 2 * k) (i : Nat)
    (hi : i < k) :
    (spec_hex_decode s).getD i 0
      = UInt8.ofNat (16 * hex_value (s.getD (2 * i) 0) + hex_value (s.getD (2 * i + 1) 0)) := by
  induction k generalizing s i with
  | zero => omega
  | succ k ih =>
    match s, hk with
    | a :: b :: rest, hk =>
      cases i with
      | zero => simp [spec_hex_decode]
      | succ i =>
        have hrest : rest.length = 2 * k := by
          simp only [List.length_cons] at hk; omega
        have e1 : 2 * (i + 1) = (2 * i) + 1 + 1 := by omega
        have e2 : 2 * (i + 1) + 1 = (2 * i + 1) + 1 + 1 := by omega
        simp only [spec_hex_decode, List.getD_cons_succ, e1, e2]
        exact ih rest hrest i (by omega)

/-- The loop of `hex_to_bytes` on a string of `2 * k` hex digits: with more
than `k` tests allowed it ends with success, having stored the bytes of the
pairs. -/
theorem hex_to_bytes_loop_ok (k : Nat) (fuel : Nat) (s tl w : List UInt8)
    (hk : s.length = 2 * k) (hfuel : k < fuel) (hhex : ∀ c ∈ s, is_hex_digit c) :
    hex_to_bytes_loop fuel s.length (s ++ tl) w
      = some { rc := 0, message := none, written := w ++ spec_hex_decode s } := by
  induction k generalizing fuel s w with
  | zero =>
    have : s = [] := List.length_eq_zero.1 (by omega)
    subst this
    cases fuel with
    | zero => omega
    | succ fuel => simp [hex_to_bytes_loop, spec_hex_decode]
  | succ k ih =>
    match s, hk, hhex with
    | a :: b :: rest, hk, hhex =>
      cases fuel with
      | zero => omega
      | succ fuel =>
        have hrest : rest.length = 2 * k := by
          simp only [List.length_cons] at hk; omega
        have ha := hexchar_to_int_spec a
        have hb := hexchar_to_int_spec b
        have hxa : is_hex_digit a := hhex a (by simp)
        have hxb : is_hex_digit b := hhex b (by simp)
        have ha255 : hexchar_to_int a ≠ 255 := fun h => (ha.1.1 h) hxa
        have hb255 : hexchar_to_int b ≠ 255 := fun h => (hb.1.1 h) hxb
        have hbyte : (hexchar_to_int a <<< 4 ||| hexchar_to_int b) % 256
            = 16 * hex_value a + hex_value b := by
          rw [(ha.2 hxa).1, (hb.2 hxb).1]
          exact shift_or_lt _ _ (ha.2 hxa).2 (hb.2 hxb).2
        have hlen : (a :: b :: rest).length - 2 = rest.length := by simp
        have hne : (a :: b :: rest).length ≠ 0 := by simp
        rw [hex_to_bytes_loop, if_neg hne]
        simp only [List.cons_append, List.getD_cons_zero, List.getD_cons_succ, List.drop_succ_cons,
          List.drop_zero, ha255, hb255, or_self, if_false, hbyte, hlen]
        rw [ih fuel rest _ hrest (by omega) (fun c hc => hhex c (by simp [hc]))]
        simp [spec_hex_decode]

/-- The loop of `hex_to_bytes` on a string of `2 * k` characters one of which
is no hex digit: it ends with the failure for an invalid character. -/
theorem hex_to_bytes_loop_invalid (k : Nat) (fuel : Nat) (s tl w : List UInt8)
    (hk : s.length = 2 * k) (hfuel : k < fuel) (hbad : ∃ c ∈ s, ¬ is_hex_digit c) :
    ∃ w', hex_to_bytes_loop fuel s.length (s ++ tl) w
      = some (ERR_RETURN "Invalid character in hex string" w') := by
  induction k generalizing fuel s w with
  | zero =>
    have : s = [] := List.length_eq_zero.1 (by omega)
    subst this
    obtain ⟨c, hc, _⟩ := hbad
    simp at hc
  | succ k ih =>
    match s, hk, hbad with
    | a :: b :: rest, hk, hbad =>
      cases fuel with
      | zero => omega
      | succ fuel =>
        have hrest : rest.length = 2 * k := by
          simp only [List.length_cons] at hk; omega
        have hne : (a :: b :: rest).length ≠ 0 := by simp
        have hlen : (a :: b :: rest).length - 2 = rest.length := by simp
        rw [hex_to_bytes_loop, if_neg hne]
        simp only [List.cons_append, List.getD_cons_zero, List.getD_cons_succ, List.drop_succ_cons,
          List.drop_zero, hlen]
        by_cases h255 : hexchar_to_int a = 255 ∨ hexchar_to_int b = 255
        · rw [if_pos h255]
          exact ⟨w, rfl⟩
        · rw [if_neg h255]
          apply ih fuel rest _ hrest (by omega)
          obtain ⟨c, hc, hcbad⟩ := hbad
          rcases List.mem_cons.1 hc with rfl | hc
          · exact absurd ((hexchar_to_int_spec c).1.2 hcbad) (fun h => h255 (Or.inl h))
          · rcases List.mem_cons.1 hc with rfl | hc
            · exact absurd ((hexchar_to_int_spec c).1.2 hcbad) (fun h => h255 (Or.inr h))
            · exact ⟨c, hc, hcbad⟩

/-- The three ways of `hex_to_bytes` on the C string of a text without zero
byte: odd length, too long, and otherwise the loop. -/
theorem hex_to_bytes_cstr (s : List UInt8) (maxbytes : Nat) (hs : (0 : UInt8) ∉ s) :
    hex_to_bytes (cstr s) maxbytes
      = if s.length % 2 = 1 then
          some (ERR_RETURN "hex string should have an even number of characters" [])
        else if s.length / 2 > maxbytes then
          some (ERR_RETURN "hex string is too long (%d bytes)" [])
        else hex_to_bytes_loop (s.length + 1) s.length (cstr s) [] := by
  unfold hex_to_bytes
  simp only [strlen_cstr s hs, Nat.and_one_is_mod]
  by_cases hodd : s.length % 2 = 1
  · have h1 : s.length % 2 ≠ 0 := by omega
    rw [if_pos h1, if_pos hodd]
  · have h1 : ¬ (s.length % 2 ≠ 0) := by omega
    rw [if_neg h1, if_neg hodd]

/-- C12: for every string `s` (a text without zero byte) and capacity
`maxbytes`, `hex_to_bytes` returns, and it fails, that is returns a negative
value with a message recorded, if and only if `len(s)` is odd, or
`len(s)/2 > maxbytes`, or some character of `s` is no hex digit; otherwise it
returns 0 and has written exactly `len(s)/2` bytes, the `i`-th of them being
`16 * value(s[2i]) + value(s[2i+1])`. -/
theorem hex_to_bytes_spec (s : List UInt8) (maxbytes : Nat) (hs : (0 : UInt8) ∉ s) :
    ∃ r, hex_to_bytes (cstr s) maxbytes = some r
      ∧ (r.rc < 0 ↔
          (s.length % 2 = 1 ∨ s.length / 2 > maxbytes ∨ ∃ c ∈ s, ¬ is_hex_digit c))
      ∧ (r.rc < 0 → r.message ≠ none)
      ∧ (¬ r.rc < 0 →
          r.rc = 0 ∧ r.written.length = s.length / 2
            ∧ ∀ i, i < s.length / 2 →
                (r.written.getD i 0).toNat
                  = 16 * hex_value (s.getD (2 * i) 0) + hex_value (s.getD (2 * i + 1) 0)) := by
  rw [hex_to_bytes_cstr s maxbytes hs]
  by_cases hodd : s.length % 2 = 1
  · rw [if_pos hodd]
    refine ⟨_, rfl, ?_, ?_, ?_⟩
    · simp [ERR_RETURN, hodd]
    · simp [ERR_RETURN]
    · simp [ERR_RETURN]
  · rw [if_neg hodd]
    by_cases hlong : s.length / 2 > maxbytes
    · rw [if_pos hlong]
      refine ⟨_, rfl, ?_, ?_, ?_⟩
      · simp [ERR_RETURN, hlong]
      · simp [ERR_RETURN]
      · simp [ERR_RETURN]
    · rw [if_neg hlong]
      have hk : s.length = 2 * (s.length / 2) := by omega
      by_cases hhex : ∀ c ∈ s, is_hex_digit c
      · refine ⟨_, hex_to_bytes_loop_ok (s.length / 2) (s.length + 1) s [0] [] hk (by omega) hhex,
          ?_, ?_, ?_⟩
        · constructor
          · intro h
            exact absurd h (by simp)
          · rintro (h | h | ⟨c, hc, hbad⟩)
            · exact absurd h hodd
            · exact absurd h hlong
            · exact absurd (hhex c hc) hbad
        · intro h
          exact absurd h (by simp)
        · intro _
          refine ⟨rfl, ?_, ?_⟩
          · simp only [List.nil_append]
            exact spec_hex_decode_length _ s hk
          · intro i hi
            simp only [List.nil_append]
            rw [spec_hex_decode_getD _ s hk i hi, toNat_ofNat_byte]
            have h1 : 2 * i < s.length := by omega
            have h2 : 2 * i + 1 < s.length := by omega
            have m1 : s.getD (2 * i) 0 ∈ s := by
              rw [List.getD_eq_getElem _ _ h1]; exact List.getElem_mem h1
            have m2 : s.getD (2 * i + 1) 0 ∈ s := by
              rw [List.getD_eq_getElem _ _ h2]; exact List.getElem_mem h2
            have v1 := ((hexchar_to_int_spec _).2 (hhex _ m1)).2
            have v2 := ((hexchar_to_int_spec _).2 (hhex _ m2)).2
            exact Nat.mod_eq_of_lt (by omega)
      · have hbad : ∃ c ∈ s, ¬ is_hex_digit c := by
          by_contra hcon
          apply hhex
          intro c hc
          by_contra hc2
          exact hcon ⟨c, hc, hc2⟩
        obtain ⟨w', hw'⟩ := hex_to_bytes_loop_invalid (s.length / 2) (s.length + 1) s [0] []
          hk (by omega) hbad
        refine ⟨_, hw', ?_, ?_, ?_⟩
        · constructor
          · intro _
            exact Or.inr (Or.inr hbad)
          · intro _
            simp [ERR_RETURN]
        · simp [ERR_RETURN]
        · simp [ERR_RETURN]

/-- C12, at a concrete input: the string `0aF3` with room for two bytes. -/
theorem hex_to_bytes_spec_witness :
    ∃ r, hex_to_bytes (cstr (ascii "0aF3")) 2 = some r
      ∧ (r.rc < 0 ↔
          ((ascii "0aF3").length % 2 = 1 ∨ (ascii "0aF3").length / 2 > 2
            ∨ ∃ c ∈ ascii "0aF3", ¬ is_hex_digit c))
      ∧ (r.rc < 0 → r.message ≠ none)
      ∧ (¬ r.rc < 0 →
          r.rc = 0 ∧ r.written.length = (ascii "0aF3").length / 2
            ∧ ∀ i, i < (ascii "0aF3").length / 2 →
                (r.written.getD i 0).toNat
                  = 16 * hex_value ((ascii "0aF3").getD (2 * i) 0)
                    + hex_value ((ascii "0aF3").getD (2 * i + 1) 0)) :=
  hex_to_bytes_spec (ascii "0aF3") 2 (by decide)

set_option maxRecDepth 100000 in
/-- The two characters that `bytes_to_hex` stores for a byte are the
lower-case digits of its high and low nibble, and decoding them gives the
byte back. -/
theorem nibble_to_hexchar_spec (x : UInt8) :
    nibble_to_hexchar (x.toNat >>> 4) = hex_digit (x.toNat / 16)
      ∧ nibble_to_hexchar (x.toNat &&& 0xf) = hex_digit (x.toNat % 16)
      ∧ is_lower_hex_digit (hex_digit (x.toNat / 16))
      ∧ is_lower_hex_digit (hex_digit (x.toNat % 16))
      ∧ UInt8.ofNat (16 * hex_value (hex_digit (x.toNat / 16))
          + hex_value (hex_digit (x.toNat % 16))) = x := by
  revert x
  apply byte_cases
  decide

set_option maxRecDepth 100000 in
/-- The lower-case digit of the value of a hex digit is that digit with its
letter turned to lower case. -/
theorem hex_digit_hex_value (c : UInt8) (hc : is_hex_digit c) :
    hex_digit (hex_value c) = lower_hex c := by
  revert c
  apply byte_cases
  decide

theorem bytes_to_hex_loop_eq (b tl str : List UInt8) :
    bytes_to_hex_loop b.length (b ++ tl) str = str ++ spec_hex_encode b := by
  induction b generalizing str with
  | nil => simp [bytes_to_hex_loop, spec_hex_encode]
  | cons x rest ih =>
    simp only [List.length_cons, bytes_to_hex_loop, List.cons_append, List.getD_cons_zero,
      List.drop_succ_cons, List.drop_zero]
    rw [ih, (nibble_to_hexchar_spec x).1, (nibble_to_hexchar_spec x).2.1]
    simp [spec_hex_encode]

theorem bytes_to_hex_eq (b : List UInt8) :
    bytes_to_hex b b.length = (0, cstr (spec_hex_encode b)) := by
  have h := bytes_to_hex_loop_eq b [] []
  rw [List.append_nil, List.nil_append] at h
  simp only [bytes_to_hex, h, cstr]

theorem spec_hex_encode_length (b : List UInt8) : (spec_hex_encode b).length = 2 * b.length := by
  induction b with
  | nil => rfl
  | cons x rest ih => simp only [spec_hex_encode, List.length_cons, ih]; omega

theorem spec_hex_encode_lower (b : List UInt8) :
    ∀ c ∈ spec_hex_encode b, is_lower_hex_digit c := by
  induction b with
  | nil => intro c hc; simp [spec_hex_encode] at hc
  | cons x rest ih =>
    intro c hc
    simp only [spec_hex_encode, List.mem_cons] at hc
    rcases hc with rfl | rfl | hc
    · exact (nibble_to_hexchar_spec x).2.2.1
    · exact (nibble_to_hexchar_spec x).2.2.2.1
    · exact ih c hc

theorem spec_hex_encode_getD (b : List UInt8) (i : Nat) (hi : i < b.length) :
    (spec_hex_encode b).getD (2 * i) 0 = hex_digit ((b.getD i 0).toNat / 16)
      ∧ (spec_hex_encode b).getD (2 * i + 1) 0 = hex_digit ((b.getD i 0).toNat % 16) := by
  induction b generalizing i with
  | nil => simp at hi
  | cons x rest ih =>
    cases i with
    | zero => simp [spec_hex_encode]
    | succ i =>
      have e1 : 2 * (i + 1) = (2 * i) + 1 + 1 := by omega
      have e2 : 2 * (i + 1) + 1 = (2 * i + 1) + 1 + 1 := by omega
      simp only [spec_hex_encode, List.getD_cons_succ, e1, e2]
      exact ih i (by simpa using hi)

theorem lower_hex_digit_is_hex (c : UInt8) (h : is_lower_hex_digit c) : is_hex_digit c := by
  unfold is_lower_hex_digit at h
  unfold is_hex_digit
  rcases h with h | h
  · exact Or.inl h
  · exact Or.inr (Or.inl h)

theorem lower_hex_digit_ne_zero (c : UInt8) (h : is_lower_hex_digit c) : c ≠ 0 := by
  intro hc
  subst hc
  exact absurd h (by decide)

theorem spec_hex_decode_encode (b : List UInt8) : spec_hex_decode (spec_hex_encode b) = b := by
  induction b with
  | nil => rfl
  | cons x rest ih =>
    simp only [spec_hex_encode, spec_hex_decode, ih, (nibble_to_hexchar_spec x).2.2.2.2]

theorem spec_hex_encode_decode (k : Nat) (s : List UInt8) (hk : s.length = 2 * k)
    (hhex : ∀ c ∈ s, is_hex_digit c) :
    spec_hex_encode (spec_hex_decode s) = s.map lower_hex := by
  induction k generalizing s with
  | zero =>
    have : s = [] := List.length_eq_zero.1 (by omega)
    subst this
    rfl
  | succ k ih =>
    match s, hk, hhex with
    | a :: b :: rest, hk, hhex =>
      have hrest : rest.length = 2 * k := by
        simp only [List.length_cons] at hk; omega
      have hxa : is_hex_digit a := hhex a (by simp)
      have hxb : is_hex_digit b := hhex b (by simp)
      have va := ((hexchar_to_int_spec a).2 hxa).2
      have vb := ((hexchar_to_int_spec b).2 hxb).2
      have e1 : (16 * hex_value a + hex_value b) % 256 / 16 = hex_value a := by omega
      have e2 : (16 * hex_value a + hex_value b) % 256 % 16 = hex_value b := by omega
      simp only [spec_hex_decode, spec_hex_encode, toNat_ofNat_byte, e1, e2, List.map_cons,
        hex_digit_hex_value a hxa, hex_digit_hex_value b hxb]
      rw [ih rest hrest (fun c hc => hhex c (by simp [hc]))]

/-- C13: for every byte sequence `b` of length `n`, `bytes_to_hex(b, str, n)`
returns 0 and writes a string of exactly `2n` characters and its closing zero
byte; every character is one of `0`-`9` and `a`-`f`, and the characters `2i`
and `2i+1` are the hex digits of the high and the low nibble of `b[i]`. -/
theorem bytes_to_hex_spec (b : List UInt8) :
    ∃ text, bytes_to_hex b b.length = (0, cstr text)
      ∧ text.length = 2 * b.length
      ∧ (∀ c ∈ text, is_lower_hex_digit c)
      ∧ (0 : UInt8) ∉ text
      ∧ ∀ i, i < b.length →
          text.getD (2 * i) 0 = hex_digit ((b.getD i 0).toNat / 16)
            ∧ text.getD (2 * i + 1) 0 = hex_digit ((b.getD i 0).toNat % 16) := by
  refine ⟨spec_hex_encode b, bytes_to_hex_eq b, spec_hex_encode_length b,
    spec_hex_encode_lower b, ?_, spec_hex_encode_getD b⟩
  intro h0
  exact lower_hex_digit_ne_zero 0 (spec_hex_encode_lower b 0 h0) rfl

/-- C13, at a concrete input: the two bytes `0a f3`. -/
theorem bytes_to_hex_spec_witness :
    ∃ text, bytes_to_hex [0x0a, 0xF3] [(0x0a : UInt8), 0xF3].length = (0, cstr text)
      ∧ text.length = 2 * [(0x0a : UInt8), 0xF3].length
      ∧ (∀ c ∈ text, is_lower_hex_digit c)
      ∧ (0 : UInt8) ∉ text
      ∧ ∀ i, i < [(0x0a : UInt8), 0xF3].length →
          text.getD (2 * i) 0 = hex_digit (([(0x0a : UInt8), 0xF3].getD i 0).toNat / 16)
            ∧ text.getD (2 * i + 1) 0
              = hex_digit (([(0x0a : UInt8), 0xF3].getD i 0).toNat % 16) :=
  bytes_to_hex_spec [0x0a, 0xF3]

/-- C18: hex round trip. For every byte sequence `b` and capacity
`maxbytes >= len(b)`, `hex_to_bytes` on the string written by `bytes_to_hex`
succeeds and writes exactly `b`; and for every string `s` (a text without zero
byte) that `hex_to_bytes` accepts with result `r`, `bytes_to_hex` of the bytes
written gives `s` with its letters `A`-`F` in lower case. -/
theorem hex_roundtrip (b : List UInt8) (maxbytes : Nat) (s : List UInt8) (capacity : Nat)
    (r : HexResult) (hcap : b.length ≤ maxbytes) (hs : (0 : UInt8) ∉ s)
    (hacc : hex_to_bytes (cstr s) capacity = some r) (hok : r.rc = 0) :
    hex_to_bytes (bytes_to_hex b b.length).2 maxbytes
        = some { rc := 0, message := none, written := b }
      ∧ bytes_to_hex r.written r.written.length = (0, cstr (s.map lower_hex)) := by
  constructor
  · have henc : (0 : UInt8) ∉ spec_hex_encode b := fun h0 =>
      lower_hex_digit_ne_zero 0 (spec_hex_encode_lower b 0 h0) rfl
    have hlen := spec_hex_encode_length b
    rw [bytes_to_hex_eq b]
    show hex_to_bytes (cstr (spec_hex_encode b)) maxbytes = _
    rw [hex_to_bytes_cstr _ maxbytes henc, hlen]
    have h1 : ¬ (2 * b.length % 2 = 1) := by omega
    have h2 : ¬ (2 * b.length / 2 > maxbytes) := by omega
    rw [if_neg h1, if_neg h2, ← hlen]
    have hloop := hex_to_bytes_loop_ok b.length ((spec_hex_encode b).length + 1)
      (spec_hex_encode b) [0] [] hlen (by omega)
      (fun c hc => lower_hex_digit_is_hex c (spec_hex_encode_lower b c hc))
    change hex_to_bytes_loop ((spec_hex_encode b).length + 1) (spec_hex_encode b).length
      (spec_hex_encode b ++ [0]) [] = _
    rw [hloop, List.nil_append, spec_hex_decode_encode]
  · rw [hex_to_bytes_cstr s capacity hs] at hacc
    by_cases hodd : s.length % 2 = 1
    · rw [if_pos hodd] at hacc
      have := Option.some.inj hacc
      subst this
      exact absurd hok (by simp [ERR_RETURN])
    · rw [if_neg hodd] at hacc
      by_cases hlong : s.length / 2 > capacity
      · rw [if_pos hlong] at hacc
        have := Option.some.inj hacc
        subst this
        exact absurd hok (by simp [ERR_RETURN])
      · rw [if_neg hlong] at hacc
        have hk : s.length = 2 * (s.length / 2) := by omega
        by_cases hhex : ∀ c ∈ s, is_hex_digit c
        · have hloop := hex_to_bytes_loop_ok (s.length / 2) (s.length + 1) s [0] [] hk
            (by omega) hhex
          change hex_to_bytes_loop (s.length + 1) s.length (s ++ [0]) [] = some r at hacc
          rw [hloop] at hacc
          have := Option.some.inj hacc
          subst this
          simp only [List.nil_append]
          rw [bytes_to_hex_eq, spec_hex_encode_decode _ s hk hhex]
        · have hbad : ∃ c ∈ s, ¬ is_hex_digit c := by
            by_contra hcon
            apply hhex
            intro c hc
            by_contra hc2
            exact hcon ⟨c, hc, hc2⟩
          obtain ⟨w', hw'⟩ := hex_to_bytes_loop_invalid (s.length / 2) (s.length + 1) s [0] []
            hk (by omega) hbad
          change hex_to_bytes_loop (s.length + 1) s.length (s ++ [0]) [] = some r at hacc
          rw [hw'] at hacc
          have := Option.some.inj hacc
          subst this
          exact absurd hok (by simp [ERR_RETURN])

/-- C18, at a concrete input: the bytes `0a f3` go to `0af3` and back, and
the accepted string `0AF3` comes back as `0af3`. -/
theorem hex_roundtrip_witness :
    hex_to_bytes (bytes_to_hex [0x0a, 0xF3] [(0x0a : UInt8), 0xF3].length).2 2
        = some { rc := 0, message := none, written := [0x0a, 0xF3] }
      ∧ bytes_to_hex [0x0a, 0xF3] [(0x0a : UInt8), 0xF3].length
        = (0, cstr ((ascii "0AF3").map lower_hex)) :=
  hex_roundtrip [0x0a, 0xF3] 2 (ascii "0AF3") 2
    { rc := 0, message := none, written := [0x0a, 0xF3] } (by decide) (by decide) (by decide)
    rfl

/-! ## Claims on the units -/

/-- C14, refuted as stated: for the amount 1024 `format_pretty_auto` passes
on the unit `ONE_KB` = 1000 chosen by `find_natural_units`, although
`ONE_KiB` = 1024 belongs to the set of units, does not exceed the amount and
is larger. -/
theorem find_natural_units_skips_binary :
    format_pretty_auto (fun _ units => units) 1024 = ONE_KB
      ∧ find_natural_units 1024 = ONE_KB
      ∧ ONE_KiB ∈ all_units ∧ ONE_KiB ≤ 1024 ∧ find_natural_units 1024 < ONE_KiB := by
  decide

/-- C14, amended: for every amount, the unit that `format_pretty_auto`
chooses (through `find_natural_units`) is the largest unit of the set
{1, KB, MB, GB, TB} that does not exceed the amount, and is 1 when no larger
unit of that set fits. -/
theorem find_natural_units_decimal (α : Type) (format_pretty : Int → Int → α) (amount : Int) :
    format_pretty_auto format_pretty amount = format_pretty amount (find_natural_units amount)
      ∧ find_natural_units amount ∈ decimal_units
      ∧ (∀ u ∈ decimal_units, u ≤ amount → u ≤ find_natural_units amount)
      ∧ (find_natural_units amount ≤ amount ∨ find_natural_units amount = 1) := by
  have hKB : ONE_KB = 1000 := rfl
  have hMB : ONE_MB = 1000000 := by decide
  have hGB : ONE_GB = 1000000000 := by decide
  have hTB : ONE_TB = 1000000000000 := by decide
  refine ⟨rfl, ?_, ?_, ?_⟩
  · unfold find_natural_units decimal_units
    split_ifs <;> simp
  · intro u hu hle
    unfold decimal_units at hu
    simp only [List.mem_cons, List.mem_singleton, List.not_mem_nil, or_false] at hu
    unfold find_natural_units
    rw [hKB, hMB, hGB, hTB] at *
    split_ifs <;> rcases hu with rfl | rfl | rfl | rfl | rfl <;> omega
  · unfold find_natural_units
    rw [hKB, hMB, hGB, hTB]
    split_ifs <;> omega

/-- C14 amended, at a concrete input: for 1500000 bytes the unit is
`ONE_MB`. -/
theorem find_natural_units_decimal_witness :
    format_pretty_auto (fun _ units => units) 1500000 = find_natural_units 1500000
      ∧ find_natural_units 1500000 ∈ decimal_units
      ∧ (∀ u ∈ decimal_units, u ≤ 1500000 → u ≤ find_natural_units 1500000)
      ∧ (find_natural_units 1500000 ≤ 1500000 ∨ find_natural_units 1500000 = 1) :=
  find_natural_units_decimal Int (fun _ units => units) 1500000

/-! ## Claims on the exit handshake -/

theorem pagesize_calls_cached (P : Platform) (later : List Int) (cached : Nat)
    (hsys : P.HAVE_SYSCONF = true) (hc : cached ≠ 0) :
    pagesize_calls P later cached = List.replicate later.length cached := by
  induction later with
  | nil => rfl
  | cons x rest ih =>
    have h : get_pagesize P x cached = (cached, cached) := by
      simp [get_pagesize, hsys, hc]
    simp only [pagesize_calls, h, ih, List.length_cons, List.replicate_succ]

theorem pagesize_calls_constant (P : Platform) (later : List Int) (cached : Nat)
    (hsys : P.HAVE_SYSCONF = false) :
    pagesize_calls P later cached = List.replicate later.length 4096 := by
  induction later generalizing cached with
  | nil => rfl
  | cons x rest ih =>
    have h : get_pagesize P x cached = (4096, 4096) := by
      simp [get_pagesize, hsys]
    simp only [pagesize_calls, h, ih, List.length_cons, List.replicate_succ]

/-- C16: `get_pagesize` determines the page size once. From program start
(`cached_pagesize = 0`), with `first` what `sysconf` reports at the first call
(a `long` that fits a `size_t`) and `later` what it would report at the later
calls, every call returns the same value: `first` when the build has
`sysconf` and `first` is positive, and 4096 otherwise. The reports in `later`
have no part in it, and the value is never 0. -/
theorem get_pagesize_once (P : Platform) (first : Int) (later : List Int)
    (hfit : first.toNat < 2 ^ P.bits) :
    pagesize_calls P (first :: later) 0
        = List.replicate (later.length + 1)
            (if P.HAVE_SYSCONF = true ∧ first > 0 then first.toNat else 4096)
      ∧ (if P.HAVE_SYSCONF = true ∧ first > 0 then first.toNat else 4096) ≠ 0 := by
  cases hsys : P.HAVE_SYSCONF
  · refine ⟨?_, by simp⟩
    rw [pagesize_calls_constant P _ 0 hsys]
    simp
  · by_cases hpos : first > 0
    · have hne : first.toNat ≠ 0 := by omega
      have h : get_pagesize P first 0 = (first.toNat, first.toNat) := by
        simp [get_pagesize, hsys, hpos, Nat.mod_eq_of_lt hfit]
      refine ⟨?_, by simp [hpos, hne]⟩
      simp only [pagesize_calls, h, pagesize_calls_cached P later _ hsys hne,
        List.replicate_succ, hpos, and_self, if_true]
    · have h : get_pagesize P first 0 = (4096, 4096) := by
        simp [get_pagesize, hsys, hpos]
      refine ⟨?_, by simp [hpos]⟩
      simp only [pagesize_calls, h, pagesize_calls_cached P later 4096 hsys (by norm_num),
        List.replicate_succ, hpos, and_false, if_false]

/-- C16, at a concrete input: the system reports 16384 at the first call and
other values later; all three calls return 16384. -/
theorem get_pagesize_once_witness :
    pagesize_calls sample_platform (16384 :: [4096, -1]) 0
        = List.replicate ([(4096 : Int), -1].length + 1)
            (if sample_platform.HAVE_SYSCONF = true ∧ (16384 : Int) > 0
              then (16384 : Int).toNat else 4096)
      ∧ (if sample_platform.HAVE_SYSCONF = true ∧ (16384 : Int) > 0
          then (16384 : Int).toNat else 4096) ≠ 0 :=
  get_pagesize_once sample_platform 16384 [4096, -1] (by decide)

/-- C17: on Linux, for the path `/tmp/sock` of an existing socket (`stat`
returns 0 with `st_mode` octal 140755), `will_be_regular_file` returns true,
although the file is not a regular one: `st_mode & S_IFREG` is non-zero for a
socket, whose type bits, octal 140000, contain the bit of `S_IFREG`, octal
100000. -/
theorem will_be_regular_file_socket :
    will_be_regular_file linux (cstr (ascii "/tmp/sock"))
        { rc := 0, st_mode := 0o140755, errno := 0 } = true
      ∧ S_ISREG linux 0o140755 = false
      ∧ 0o140755 &&& linux.S_IFMT = 0o140000 := by
  decide

/-- C20: for the haystack `abc` and the needle `bc` the fallback `memmem`
returns `NULL`, although the needle occurs at offset 1, as the last two bytes
of the haystack: the loop stops when `p` reaches `pend`, the last offset at
which the needle fits, without comparing there. The same holds when the
needle is the whole haystack. -/
theorem memmem_misses_final_occurrence :
    memmem (ascii "abc") 3 (ascii "bc") 2 = some none
      ∧ occurs_at (ascii "abc") (ascii "bc") 1
      ∧ memmem (ascii "abc") 3 (ascii "abc") 3 = some none
      ∧ occurs_at (ascii "abc") (ascii "abc") 0 := by
  decide

/-! ## The bounds of the aligned address -/

theorem size_add_eq (P : Platform) (a b : Nat) (h : a + b < 2 ^ P.bits) :
    size_add P a b = a + b :=
  Nat.mod_eq_of_lt h

theorem size_sub_eq (P : Platform) (a b : Nat) (hba : b ≤ a) (ha : a < 2 ^ P.bits) :
    size_sub P a b = a - b := by
  unfold size_sub
  rw [Nat.mod_eq_of_lt (lt_of_le_of_lt hba ha)]
  have e : a + (2 ^ P.bits - b) = (a - b) + 2 ^ P.bits := by omega
  rw [e, Nat.add_mod_right]
  exact Nat.mod_eq_of_lt (by omega)

/-- Masking a `W`-bit value with `2 ^ W - 2 ^ k` rounds it down to a multiple
of `2 ^ k`. -/
theorem land_mask (x W k : Nat) (hx : x < 2 ^ W) (hk : k ≤ W) :
    x &&& (2 ^ W - 2 ^ k) = 2 ^ k * (x / 2 ^ k) := by
  have hm : 2 ^ W - 2 ^ k = 2 ^ k * (2 ^ (W - k) - 1) := by
    rw [Nat.mul_sub, ← pow_add, Nat.add_sub_cancel' hk, mul_one]
  rw [hm]
  apply Nat.eq_of_testBit_eq
  intro i
  rw [Nat.testBit_land, Nat.testBit_mul_pow_two, Nat.testBit_mul_pow_two,
    Nat.testBit_two_pow_sub_one, ← Nat.shiftRight_eq_div_pow, Nat.testBit_shiftRight]
  by_cases hik : i ≥ k
  · have e : k + (i - k) = i := by omega
    rw [e]
    by_cases hiW : i < W
    · have : i - k < W - k := by omega
      simp [hik, this]
    · have hfalse : x.testBit i = false :=
        Nat.testBit_lt_two_pow
          (lt_of_lt_of_le hx (Nat.pow_le_pow_right (by norm_num) (by omega)))
      simp [hfalse]
  · simp [hik]

/-- C19: on the synthesized path, for every size, every page size `2 ^ k` no
smaller than `sizeof(void*)` (pointers having at most 64 bits) and every
backing address `original`, not `NULL`, for which
`original + size + 2*pagesize - 1` does not overflow, `alloc_page_aligned`
returns an address `a` with `original + pagesize <= a <= original +
2*pagesize - 1`; the slot `[a - sizeof(void*), a)` starts at or after
`original`, and the block `[a, a + size)` ends at or before the end
`original + size + 2*pagesize - 1` of the backing allocation, so both lie in
it, the slot ending where the block starts. -/
theorem alloc_page_aligned_bounds (P : Platform) (sysconf : Int) (original size : Nat)
    (σ : AllocState) (k : Nat)
    (hptr : P.ptrBytes ≤ 8)
    (hpow : (get_pagesize P sysconf σ.cached_pagesize).1 = 2 ^ k)
    (hword : P.ptrBytes ≤ 2 ^ k)
    (horig : original ≠ 0)
    (hfit : original + size + 2 * 2 ^ k - 1 < 2 ^ P.bits) :
    ∃ a σ', alloc_page_aligned P sysconf original size σ = AllocOutcome.returned a σ'
      ∧ original + 2 ^ k ≤ a ∧ a ≤ original + 2 * 2 ^ k - 1
      ∧ P.ptrBytes ≤ a ∧ original ≤ a - P.ptrBytes
      ∧ a + size ≤ original + size + 2 * 2 ^ k - 1 := by
  have hp : 0 < 2 ^ k := Nat.pos_pow_of_pos k (by norm_num)
  have hkW : k < P.bits := by
    apply (Nat.pow_lt_pow_iff_right (a := 2) (by norm_num)).1
    omega
  have h64 : 2 ^ P.bits ≤ 2 ^ 64 := by
    apply Nat.pow_le_pow_right (by norm_num)
    unfold Platform.bits
    omega
  have e1 : size_add P (2 ^ k) (2 ^ k) = 2 * 2 ^ k := by
    rw [size_add_eq P _ _ (by omega)]; omega
  have e2 : size_sub P (2 * 2 ^ k) 1 = 2 * 2 ^ k - 1 := size_sub_eq P _ _ (by omega) (by omega)
  have e3 : size_add P size (2 * 2 ^ k - 1) = size + (2 * 2 ^ k - 1) :=
    size_add_eq P _ _ (by omega)
  have e4 : size_add P original (2 * 2 ^ k - 1) = original + (2 * 2 ^ k - 1) :=
    size_add_eq P _ _ (by omega)
  have hx : original + (2 * 2 ^ k - 1) < 2 ^ P.bits := by omega
  have e5 : (original + (2 * 2 ^ k - 1)) % 2 ^ 64 = original + (2 * 2 ^ k - 1) :=
    Nat.mod_eq_of_lt (by omega)
  have e6 := land_mask (original + (2 * 2 ^ k - 1)) P.bits k hx (Nat.le_of_lt hkW)
  have hdm := Nat.div_add_mod (original + (2 * 2 ^ k - 1)) (2 ^ k)
  have hmod := Nat.mod_lt (original + (2 * 2 ^ k - 1)) hp
  generalize ha : 2 ^ k * ((original + (2 * 2 ^ k - 1)) / 2 ^ k) = a at e6 hdm
  have e7 : a % 2 ^ P.bits = a := Nat.mod_eq_of_lt (by omega)
  have hcond : P.ptrBytes ≤ a ∧ original ≤ a - P.ptrBytes
      ∧ a ≤ original + (size + (2 * 2 ^ k - 1)) := by
    refine ⟨by omega, by omega, by omega⟩
  refine ⟨a, { cached_pagesize := (get_pagesize P sysconf σ.cached_pagesize).2,
               mem := store_bytes σ.mem (a - P.ptrBytes) (object_bytes P P.ptrBytes original) },
    ?_, by omega, by omega, hcond.1, hcond.2.1, by omega⟩
  unfold alloc_page_aligned
  simp only [hpow, e1, e2, e3, e4, e5, size_not_mask P k hkW, e6, e7, if_neg horig, hcond,
    and_self, if_true]

/-- C19, at a concrete input: 100 bytes with the page size 4096 on the
backing address 69633 give the address 77824. -/
theorem alloc_page_aligned_bounds_witness :
    ∃ a σ', alloc_page_aligned sample_platform 4096 69633 100
          { cached_pagesize := 0, mem := fun _ => 0 } = AllocOutcome.returned a σ'
      ∧ 69633 + 2 ^ 12 ≤ a ∧ a ≤ 69633 + 2 * 2 ^ 12 - 1
      ∧ sample_platform.ptrBytes ≤ a ∧ 69633 ≤ a - sample_platform.ptrBytes
      ∧ a + 100 ≤ 69633 + 100 + 2 * 2 ^ 12 - 1 :=
  alloc_page_aligned_bounds sample_platform 4096 69633 100
    { cached_pagesize := 0, mem := fun _ => 0 } 12
    (by decide) (by decide) (by decide) (by decide) (by decide)

end Fwup
